import Mathlib

/-!
# SEA: a shallow embedding of the editor core

The definitions below follow `editor.go` and `syntax/langs.go` function by
function and keep the source's names.

Conventions of the embedding.

* A byte is a natural number below 256, a `uint` a natural number.  Line
  lengths, row counts and cursor coordinates are bounded by the size of the
  memory, so their increments are modelled without wrap-around; the
  arithmetic of `scroll`, where the subtraction can wrap, is modelled
  modulo `2 ^ 64`.
* A `[]byte` is a slice header (`slice`) into a heap of backing arrays, so
  that two lines may share one backing array as they do in the source after
  `new_line`.
* A run-time panic of the source (index or slice bound out of range) is the
  result `none`.
-/

namespace SEA

/-! ## Bytes and constants -/

/-- The bytes of a string constant of the source (all of them are ASCII). -/
def bs (s : String) : List Nat := s.toList.map Char.toNat

def KEY_QUIT : Nat := 0x11
def KEY_SAVE : Nat := 0x13
def KEY_BACKSPACE : Nat := 0x7F
def KEY_NEW_LINE : Nat := 0x0D
/-- The constant `1000 + iota`, fifth entry of the block (iota = 4). -/
def KEY_LEFT : Nat := 1000 + 4
def KEY_RIGHT : Nat := 1000 + 5
def KEY_UP : Nat := 1000 + 6
def KEY_DOWN : Nat := 1000 + 7
def KEY_PG_UP : Nat := 1000 + 8
def KEY_PG_DOWN : Nat := 1000 + 9
def KEY_DEL : Nat := 1000 + 10

def T_BOLD : Nat := 1
def T_RED : Nat := 31
def T_GREEN : Nat := 32
def T_YELLOW : Nat := 33
def T_BLUE : Nat := 34
def T_PURPLE : Nat := 35
def T_CYAN : Nat := 36
def T_OFF : Nat := 0
def T_INVERT : Nat := 7

def H_NONE : Nat := T_OFF
def H_NUM : Nat := T_BLUE
def H_MATCH : Nat := T_INVERT
def H_STR : Nat := T_GREEN
def H_COMMENT : Nat := T_CYAN
def H_KEY : Nat := T_PURPLE
def H_KEY_ALT : Nat := T_YELLOW

/-! ## The profile registry (`syntax/langs.go`) -/

/-- The record `syntax.Syntax`. -/
structure Syntax where
  Is_highlighted : Bool
  In_line_comment : List Nat
  Keywords : List (List Nat)
deriving DecidableEq, Repr

/-- The zero value of `Syntax`: the package variable `syntax` at start-up, and
`editor.language` before any file name is known. -/
def Syntax.zero : Syntax := ⟨false, [], []⟩

def py_keywords : List (List Nat) :=
  ["False|", "None|", "True|", "and|", "as", "assert", "break", "class|",
   "continue", "def|", "del", "elif", "else", "except", "finally", "for", "from", "global|",
   "if", "import", "in|", "is|", "lambda|", "nonlocal|", "not|", "or|", "pass", "raise", "return",
   "try", "while", "with", "yield"].map bs

def c_keywords : List (List Nat) :=
  ["switch", "if", "while", "for", "break", "continue", "return", "else",
   "struct", "union", "typedef", "static", "enum", "class", "case",
   "int|", "long|", "double|", "float|", "char|", "unsigned|", "signed|",
   "void|"].map bs

def go_keywords : List (List Nat) :=
  ["break", "case", "chan", "const",
   "continue", "default", "defer", "else", "fallthrough", "for", "func",
   "go", "goto", "if", "import", "interface", "map", "package", "range",
   "return", "select", "struct", "switch", "type", "var",
   "bool|", "string|", "int|", "int8|", "int16|", "int32|", "int64|",
   "uint|", "uint8|", "uint16|", "uint32|", "uint64|", "byte|", "rune|",
   "float32|", "float64|", "complex64|", "complex128|", "uintptr|"].map bs

/-- The scan of `filepath.Ext` over the reversed path: `acc` holds the bytes
already passed, in file order. -/
def ext_scan : List Char → List Char → List Char
  | [], _ => []
  | ch :: before, acc =>
    if ch = '/' then [] else
    if ch = '.' then ch :: acc else ext_scan before (ch :: acc)

/-- The library function `filepath.Ext`: the suffix of the path that starts at
the last dot of its last element, empty when that element has no dot. -/
def filepath_Ext (path : String) : String := String.mk (ext_scan path.toList.reverse [])

/-- The function `Setup_syntax`; `prev` is the package variable `syntax`,
which the function updates and returns. -/
def Setup_syntax (prev : Syntax) (file_name : String) : Syntax :=
  let ext := filepath_Ext file_name
  if ext = ".py" then ⟨true, bs "#", py_keywords⟩
  else if ext = ".c" then ⟨true, bs "//", c_keywords⟩
  else if ext = ".go" then ⟨true, bs "//", go_keywords⟩
  else ⟨false, prev.In_line_comment, prev.Keywords⟩

/-! ## The highlighter -/

def delimiters : List Nat := bs ",.()+-/*=~%<>[]; \t\n\r"

def is_delimiter (char : Nat) : Bool := delimiters.contains char

/-- The test `unicode.IsDigit(rune(char))` on a byte: in the Latin-1 range the
decimal digits are `0` to `9`. -/
def is_digit (char : Nat) : Bool := decide (48 ≤ char) && decide (char ≤ 57)

/-- The test `strings.Contains("abcdef1234567890", string(b))`. -/
def is_hex_char (b : Nat) : Bool := ( bs "abcdef1234567890").contains b

/-- The assignment `a[k] = v` on a byte array; out of range is a panic. -/
def store (a : List Nat) (k v : Nat) : Option (List Nat) :=
  if k < a.length then some (a.set k v) else none

/-- The loop `for j := 0; j < n; j++ { hl[base+j] = v }`, with `n = j + cnt`. -/
def fill_up (base v : Nat) : Nat → Nat → List Nat → Option (List Nat)
  | 0, _, hl => some hl
  | cnt + 1, j, hl => (store hl (base + j) v).bind (fill_up base v cnt (j + 1))

/-- The loop `for j > i { hl[j-1] = H_NUM; j-- }`, with `j = i + cnt`. -/
def fill_down (i : Nat) : Nat → List Nat → Option (List Nat)
  | 0, hl => some hl
  | cnt + 1, hl => (store hl (i + cnt) H_NUM).bind (fill_down i cnt)

/-- The scan `for j = i + 2; j < int(line.len); j++` of the hex literal; the
first argument counts the iterations left, `line.len - j`.  The result is
`(is_hex, j)` at the exit of the loop. -/
def hex_scan (text : List Nat) : Nat → Nat → Option (Bool × Nat)
  | 0, j => some (true, j)
  | cnt + 1, j =>
    match text[j]? with
    | none => none
    | some b =>
      if is_delimiter b then some (true, j)
      else if !is_hex_char b then some (false, j)
      else hex_scan text cnt (j + 1)

/-- The body of the loop over `editor.language.Keywords`, for one keyword `kw`
(its marker `|` taken off) of class `kw_type`, at index `i`; `rest` is
`line.text[i:]`, and `next` the result of the iterations that follow, which
is taken when the keyword does not match. -/
def keyword_at (rest : List Nat) (i : Nat) (kw : List Nat) (kw_type : Nat) (hl : List Nat)
    (next : Option (List Nat)) : Option (List Nat) :=
  let kw_len := kw.length
  if rest.length + 1 ≤ kw_len then next
  else if rest.take kw_len = kw then
    if rest.length = kw_len then fill_up i kw_type kw_len 0 hl
    else
      match rest[kw_len]? with
      | none => none
      | some b => if is_delimiter b then fill_up i kw_type kw_len 0 hl else next
  else next

/-- The loop over `editor.language.Keywords` at index `i`; `rest` is
`line.text[i:]`.  The two assignments of the source that this definition
leaves out, `new_word = false` and `i += kw_len`, write variables that are
not read again: `new_word` is overwritten right after the loop, and `i` is
reassigned by the `range` clause at the next iteration. -/
def keyword_loop (rest : List Nat) (i : Nat) : List (List Nat) → List Nat → Option (List Nat)
  | [], hl => some hl
  | keyword :: more, hl =>
    if keyword = [] then none
    else if keyword.getLast? = some 124 then
      keyword_at rest i keyword.dropLast H_KEY_ALT hl (keyword_loop rest i more hl)
    else keyword_at rest i keyword H_KEY hl (keyword_loop rest i more hl)

/-- The local variables of `highlight_line` that live across iterations. -/
structure hl_state where
  hl : List Nat
  new_word : Bool
  skip : Nat
  string_char : Nat
deriving DecidableEq, Repr

/-- The body of `if bytes.HasPrefix(line.text[i:], []byte("0x")) && new_word`:
the scan of the literal and, when all of it is hexadecimal, its marking. -/
def hex_literal (text : List Nat) (len i : Nat) (hl : List Nat) : Option (List Nat) :=
  match hex_scan text (len - (i + 2)) (i + 2) with
  | none => none
  | some (is_hex, j) => if is_hex then fill_down i (j - i) hl else some hl

/-- The part of the loop body of `highlight_line` after the string handling:
hex literal, decimal literal, keywords, and the update of `new_word`. -/
def hl_word (lang : Syntax) (text : List Nat) (len i char : Nat) (st : hl_state) :
    Option hl_state := do
  let rest := text.drop i
  let prev ← (if 0 < i then st.hl[i - 1]? else some H_NONE)
  let hl1 ←
    (if ( bs "0x").isPrefixOf rest && st.new_word then hex_literal text len i st.hl
     else some st.hl)
  let num := (is_digit char && (st.new_word || decide (prev = H_NUM)))
              || (decide (char = 46) && decide (prev = H_NUM))
  let hl2 ← (if num then store hl1 i H_NUM else some hl1)
  let new_word := if num then false else st.new_word
  let hl3 ← (if new_word then keyword_loop rest i lang.Keywords hl2 else some hl2)
  some { st with hl := hl3, new_word := is_delimiter char }

/-- The loop `for i, char := range line.text` of `highlight_line`; the first
argument counts the iterations left, `len(line.text) - i`. -/
def hl_loop (lang : Syntax) (text : List Nat) (len : Nat) : Nat → Nat → hl_state → Option (List Nat)
  | 0, _, st => some st.hl
  | cnt + 1, i, st =>
    match text[i]? with
    | none => none
    | some char =>
      if 0 < st.skip then hl_loop lang text len cnt (i + 1) { st with skip := st.skip - 1 }
      else if st.string_char = 0 && lang.In_line_comment.isPrefixOf (text.drop i) then
        fill_up i H_COMMENT (text.drop i).length 0 st.hl
      else if st.string_char ≠ 0 then
        match store st.hl i H_STR with
        | none => none
        | some hl1 =>
          if char = 92 ∧ i + 1 < len then
            match store hl1 (i + 1) H_STR with
            | none => none
            | some hl2 => hl_loop lang text len cnt (i + 1) { st with hl := hl2, skip := st.skip + 1 }
          else if char = st.string_char then
            hl_loop lang text len cnt (i + 1) { st with hl := hl1, string_char := 0 }
          else hl_loop lang text len cnt (i + 1) { st with hl := hl1 }
      else if char = 39 ∨ char = 34 then
        match store st.hl i H_STR with
        | none => none
        | some hl1 => hl_loop lang text len cnt (i + 1) { st with hl := hl1, string_char := char }
      else
        match hl_word lang text len i char st with
        | none => none
        | some st1 => hl_loop lang text len cnt (i + 1) st1

/-- The function `highlight_line`: the new value of `line.highlight`, from the
profile, the bytes of `line.text` and the field `line.len`. -/
def highlight_line (lang : Syntax) (text : List Nat) (len : Nat) : Option (List Nat) :=
  hl_loop lang text len text.length 0 ⟨List.replicate len H_NONE, true, 0, 0⟩

/-! ## Byte slices and the heap of backing arrays -/

/-- The header of a `[]byte`: backing array, offset of the first element in
it, length, and capacity (counted from the offset). -/
structure slice where
  arr : Nat
  off : Nat
  len : Nat
  cap : Nat
deriving DecidableEq, Repr

/-- The backing arrays, addressed by their index. -/
abbrev Heap := List (List Nat)

/-- The nil slice. -/
def slice.nil : slice := ⟨0, 0, 0, 0⟩

/-- The backing array with index `k` (empty when there is none). -/
def Heap.array (h : Heap) (k : Nat) : List Nat := (h[k]?).getD []

/-- The bytes a slice denotes in a heap. -/
def slice.bytes (h : Heap) (s : slice) : List Nat := ((h.array s.arr).drop s.off).take s.len

/-- The slice expression `s[lo:hi]`: the bounds are checked against the
capacity. -/
def slice.sub (s : slice) (lo hi : Nat) : Option slice :=
  if lo ≤ hi ∧ hi ≤ s.cap then some ⟨s.arr, s.off + lo, hi - lo, s.cap - lo⟩ else none

/-- The slice expression `s[lo:]`, which is `s[lo:len(s)]`. -/
def slice.tail_from (s : slice) (lo : Nat) : Option slice := s.sub lo s.len

/-- The slice expression `s[:hi]`. -/
def slice.head_to (s : slice) (hi : Nat) : Option slice := s.sub 0 hi

/-- An array with the bytes `xs` written from position `pos` on. -/
def write_at (a : List Nat) (pos : Nat) (xs : List Nat) : List Nat :=
  a.take pos ++ xs ++ a.drop (pos + xs.length)

/-- The heap after writing `xs` into array `arr` from position `pos` on. -/
def Heap.write (h : Heap) (arr pos : Nat) (xs : List Nat) : Heap :=
  h.set arr (write_at (h.array arr) pos xs)

/-- A new backing array with the given content, and the slice of all of it
(`make` followed by the writes that fill it, or a buffer handed out by a
library call). -/
def alloc (h : Heap) (content : List Nat) : Heap × slice :=
  (h ++ [content], ⟨h.length, 0, content.length, content.length⟩)

/-- The built-in `append(s, xs...)`.  When the capacity suffices the bytes are
written in place, behind the last element of `s`; otherwise they go to a new
array, whose capacity the run-time system chooses: `grow oldcap needed`, and
at least `needed`.  The bytes `xs` are read before the write. -/
def go_append (grow : Nat → Nat → Nat) (h : Heap) (s : slice) (xs : List Nat) : Heap × slice :=
  if s.len + xs.length ≤ s.cap then
    (h.write s.arr (s.off + s.len) xs, { s with len := s.len + xs.length })
  else
    let n := s.len + xs.length
    let c := max n (grow s.cap n)
    (h ++ [s.bytes h ++ xs ++ List.replicate (c - n) 0], ⟨h.length, 0, n, c⟩)

/-! ## The editor state -/

structure vector where
  x : Nat
  y : Nat
deriving DecidableEq, Repr

/-- The record `line_t`.  The field `highlight` is held by value: every
assignment to it is a fresh `make`, and no slice of it is ever stored. -/
structure line_t where
  text : slice
  highlight : List Nat
  len : Nat
deriving DecidableEq, Repr

/-- The record `editor_state` (without the terminal handle and the clock),
together with the heap its byte slices point into and the package variable
`syntax` of the profile registry. -/
structure editor_state where
  heap : Heap
  file_name : String
  new_file : Bool
  msg : String
  dim : vector
  offset : vector
  cursor : vector
  used_rows : Nat
  lines : List line_t
  clean : Bool
  quit_attempted : Bool
  language : Syntax
  registry_var : Syntax
deriving DecidableEq, Repr

/-- The bytes of line `ln` in state `s`. -/
def line_t.bytes (s : editor_state) (ln : line_t) : List Nat := ln.text.bytes s.heap

/-- The texts of the lines of the document, in order. -/
def editor_state.texts (s : editor_state) : List (List Nat) := s.lines.map (line_t.bytes s)

def set_message (m : String) (s : editor_state) : editor_state := { s with msg := m }

def modified (s : editor_state) : editor_state :=
  set_message "CTRL-S to save" { s with clean := false, quit_attempted := false }

/-! ## Cursor and viewport -/

/-- The `switch` of `move_cursor`. -/
def move_step (key : Nat) (s : editor_state) : Option editor_state :=
  if key = KEY_UP then
    (if 0 < s.cursor.y then some { s with cursor := ⟨s.cursor.x, s.cursor.y - 1⟩ } else some s)
  else if key = KEY_DOWN then
    (if s.cursor.y + 1 < s.used_rows then some { s with cursor := ⟨s.cursor.x, s.cursor.y + 1⟩ }
     else some s)
  else if key = KEY_LEFT then
    (if 0 < s.cursor.x then some { s with cursor := ⟨s.cursor.x - 1, s.cursor.y⟩ }
     else if 0 < s.cursor.y then
       (s.lines[s.cursor.y - 1]?).map (fun l => { s with cursor := ⟨l.len, s.cursor.y - 1⟩ })
     else some s)
  else if key = KEY_RIGHT then
    (if s.cursor.y < s.used_rows then
       (s.lines[s.cursor.y]?).map (fun l =>
          if s.cursor.x < l.len then { s with cursor := ⟨s.cursor.x + 1, s.cursor.y⟩ }
          else if s.cursor.x = l.len ∧ s.cursor.y + 1 < s.used_rows then
            { s with cursor := ⟨0, s.cursor.y + 1⟩ }
          else s)
     else some s)
  else some s

/-- The end of `move_cursor`: the column is cut down to the length of the
line the cursor is on. -/
def clamp_x (s : editor_state) : Option editor_state :=
  (if s.cursor.y < s.used_rows then (s.lines[s.cursor.y]?).map (fun l => l.len)
   else some 0).bind fun length =>
  if length < s.cursor.x then some { s with cursor := ⟨length, s.cursor.y⟩ } else some s

def move_cursor (key : Nat) (s : editor_state) : Option editor_state :=
  (move_step key s).bind clamp_x

/-- Addition of `uint`. -/
def uadd (a b : Nat) : Nat := (a + b) % 18446744073709551616

/-- Subtraction of `uint`. -/
def usub (a b : Nat) : Nat := (a + 18446744073709551616 - b) % 18446744073709551616

def scroll (s : editor_state) : editor_state :=
  let ox1 := if s.cursor.x < s.offset.x then s.cursor.x else s.offset.x
  let ox2 := if uadd ox1 s.dim.x ≤ s.cursor.x then uadd (usub s.cursor.x s.dim.x) 1 else ox1
  let oy1 := if s.cursor.y < s.offset.y then s.cursor.y else s.offset.y
  let oy2 := if uadd s.dim.y oy1 ≤ s.cursor.y then uadd (usub s.cursor.y s.dim.y) 1 else oy1
  { s with offset := ⟨ox2, oy2⟩ }

/-! ## The line buffer -/

def add_line (loc : Nat) (line : slice) (s : editor_state) : Option editor_state :=
  if s.used_rows < loc then some s else
  let row : line_t := ⟨line, [], line.len⟩
  (if loc = s.used_rows then some (s.lines ++ [row])
   else if loc = 0 then some (row :: s.lines)
   else if loc ≤ s.lines.length then some (s.lines.take loc ++ row :: s.lines.drop loc)
   else none).bind fun lines1 =>
  (lines1[loc]?).bind fun ln =>
  (highlight_line s.language (ln.text.bytes s.heap) ln.len).bind fun hl =>
  some (modified { s with lines := lines1.set loc { ln with highlight := hl },
                          used_rows := s.used_rows + 1 })

/-- The function `stringify`: the pair `(b.buffer, b.len)`. -/
def stringify (s : editor_state) : List Nat × Nat :=
  s.lines.foldl (fun acc line => (acc.1 ++ line.text.bytes s.heap ++ [10], acc.2 + (line.len + 1)))
    ([], 0)

/-- The three branches of `insert` that put the byte `c` into `line.text` at
column `loc`: the heap after them and the new value of `line.text`. -/
def insert_text (grow : Nat → Nat → Nat) (c loc : Nat) (h : Heap) (line : line_t) :
    Option (Heap × slice) :=
  if line.len < loc then some (go_append grow h line.text [c])
  else if loc = 0 then
    let src := line.text.bytes h
    some (alloc h (c :: (src.take line.len ++ List.replicate (line.len - src.length) 0)))
  else
    (line.text.tail_from loc).bind fun tl =>
    let back := c :: tl.bytes h
    (line.text.head_to loc).bind fun hd =>
    some (go_append grow h hd back)

def insert (grow : Nat → Nat → Nat) (c : Nat) (s0 : editor_state) : Option editor_state :=
  (if s0.cursor.y = s0.used_rows then add_line s0.used_rows slice.nil s0 else some s0).bind fun s =>
  (s.lines[s.cursor.y]?).bind fun line =>
  (insert_text grow c s.cursor.x s.heap line).bind fun r =>
  (highlight_line s.language (r.2.bytes r.1) (line.len + 1)).bind fun hl =>
  some (modified { s with heap := r.1,
                          lines := s.lines.set s.cursor.y ⟨r.2, hl, line.len + 1⟩,
                          cursor := ⟨s.cursor.x + 1, s.cursor.y⟩ })

def new_line (s : editor_state) : Option editor_state :=
  (if s.cursor.x = 0 then
     add_line s.cursor.y (alloc s.heap []).2 { s with heap := (alloc s.heap []).1 }
   else
     (s.lines[s.cursor.y]?).bind fun cur_line =>
     (cur_line.text.tail_from s.cursor.x).bind fun back =>
     (add_line (s.cursor.y + 1) back s).bind fun s1 =>
     (cur_line.text.head_to s.cursor.x).bind fun front =>
     (s1.lines[s1.cursor.y]?).bind fun ln =>
     some { s1 with
            lines := s1.lines.set s1.cursor.y { ln with text := front, len := front.len } }).bind
  fun s1 => some { s1 with cursor := ⟨0, s1.cursor.y + 1⟩ }

/-- The branch `editor.cursor.x > 0` of `del`: the byte before the cursor is
taken out of `line`, the line at the cursor. -/
def del_char (grow : Nat → Nat → Nat) (s : editor_state) (line : line_t) : Option editor_state :=
  let loc := s.cursor.x - 1
  if line.len ≤ loc then some s
  else
    (line.text.head_to loc).bind fun hd =>
    (line.text.tail_from (loc + 1)).bind fun tl =>
    let r := go_append grow s.heap hd (tl.bytes s.heap)
    (highlight_line s.language (r.2.bytes r.1) (line.len - 1)).bind fun hl =>
    some (modified { s with heap := r.1,
                            lines := s.lines.set s.cursor.y ⟨r.2, hl, line.len - 1⟩,
                            cursor := ⟨s.cursor.x - 1, s.cursor.y⟩ })

/-- The branch `else` of `del`: `line`, the line at the cursor, is joined to
the line above it. -/
def del_merge (grow : Nat → Nat → Nat) (s : editor_state) (line : line_t) : Option editor_state :=
  (s.lines[s.cursor.y - 1]?).bind fun above =>
  let r := go_append grow s.heap above.text (line.text.bytes s.heap)
  let above1 : line_t := { above with text := r.2, len := r.2.len }
  let lines1 := s.lines.set (s.cursor.y - 1) above1
  let loc := s.cursor.y
  if s.used_rows < loc then
    some { s with heap := r.1, lines := lines1, cursor := ⟨above.len, s.cursor.y⟩ }
  else
    let lines2 := lines1.take loc ++ lines1.drop (loc + 1)
    (highlight_line s.language (r.2.bytes r.1) above1.len).bind fun hl =>
    some (modified { s with heap := r.1,
                            lines := lines2.set (s.cursor.y - 1) { above1 with highlight := hl },
                            used_rows := s.used_rows - 1,
                            cursor := ⟨above.len, s.cursor.y - 1⟩ })

def del (grow : Nat → Nat → Nat) (s : editor_state) : Option editor_state :=
  if s.cursor.y = s.used_rows then some s
  else if s.cursor.x = 0 ∧ s.cursor.y = 0 then some s
  else
    (s.lines[s.cursor.y]?).bind fun line =>
    if 0 < s.cursor.x then del_char grow s line else del_merge grow s line

/-! ## Saving and loading -/

/-- The outcomes of the calls that `save` makes to the outside: what the
prompt for a file name returns, whether `os.OpenFile` fails, and the error of
`f.Write`, if any. -/
structure world where
  prompt_result : String
  open_error : Bool
  write_error : Option String
deriving DecidableEq, Repr

/-- The loop `for i := 0; i < len(editor.lines); i++ { highlight_line(&editor.lines[i]) }`. -/
def rehighlight (lang : Syntax) (h : Heap) : List line_t → Option (List line_t)
  | [] => some []
  | ln :: more => do
    let hl ← highlight_line lang (ln.text.bytes h) ln.len
    let more1 ← rehighlight lang h more
    some ({ ln with highlight := hl } :: more1)

/-- The second half of `save`, from `b := buf{}` on. -/
def save_write (w : world) (s : editor_state) : editor_state :=
  let b := stringify s
  if w.open_error then s
  else
    match w.write_error with
    | some err => set_message ("Unable to save file. Error: " ++ err) s
    | none => { set_message ("File saved. " ++ toString b.2 ++ " bytes written") s with clean := true }

/-- The function `save`.  The call of `prompt` is modelled by its result and by
what it leaves behind in the editor: the offset after `scroll` (it repaints
the terminal) and an empty message. -/
def save (w : world) (s : editor_state) : Option editor_state :=
  if s.file_name = "" then
    let s1 := { set_message "" (scroll s) with file_name := w.prompt_result }
    if s1.file_name = "" then some (set_message "Did not save" s1)
    else do
      let lang := Setup_syntax s1.registry_var s1.file_name
      let lines1 ← rehighlight lang s1.heap s1.lines
      some (save_write w { s1 with language := lang, registry_var := lang, lines := lines1 })
  else some (save_write w s)

/-- The successive results of `f.ReadBytes(10)` that come with `err == nil`, in
the loop of `open_file`: each is a run of bytes up to and including a newline.
`cur` holds the bytes read since the last newline.  At the end of the input
`ReadBytes` returns them with `io.EOF`, and the loop ends. -/
def read_lines : List Nat → List Nat → List (List Nat)
  | [], _ => []
  | b :: more, cur =>
    if b = 10 then (cur ++ [b]) :: read_lines more [] else read_lines more (cur ++ [b])

/-- The inner loop of `open_file`, which cuts newlines and carriage returns off
the end of `line`; the first argument counts the iterations left, at most
`len(line)`, and `char` is the loop variable. -/
def strip_eol : Nat → List Nat → Nat → List Nat
  | 0, line, _ => line
  | cnt + 1, line, char =>
    if 0 < line.length ∧ (char = 10 ∨ char = 13) then
      let line1 := line.dropLast
      strip_eol cnt line1 (if 0 < line1.length then line1.getLast?.getD char else char)
    else line

/-- One pass of the loop body of `open_file` for a buffer `raw` that
`ReadBytes` returned: the line is the front of that buffer. -/
def open_line (raw : List Nat) (s : editor_state) : Option editor_state := do
  let char ← raw.getLast?
  let line := strip_eol raw.length raw char
  let (heap1, buffer) := alloc s.heap raw
  let text ← buffer.head_to line.length
  add_line s.used_rows text { s with heap := heap1 }

/-- The loop of `open_file` over the buffers that `ReadBytes` returns. -/
def open_lines : List (List Nat) → editor_state → Option editor_state
  | [], s => some s
  | raw :: more, s => (open_line raw s).bind (open_lines more)

/-- The function `open_file`; `content` is `none` when the file does not
exist, and the bytes of the file otherwise (a failure to read it ends the
process). -/
def open_file (file_name : String) (content : Option (List Nat)) (s : editor_state) :
    Option editor_state :=
  let lang := Setup_syntax s.registry_var file_name
  let s1 := { s with file_name := file_name, language := lang, registry_var := lang }
  match content with
  | none => some { s1 with new_file := true }
  | some bytes => (open_lines (read_lines bytes []) s1).map (fun s2 => { s2 with clean := true })

/-! ## The input decoder and the dispatch of key events -/

/-- The final `switch sequence[1]` of `read_input`, and the `return` of the
escape byte behind it. -/
def arrow_key (b : Nat) : Nat :=
  if b = 0x41 then KEY_UP
  else if b = 0x42 then KEY_DOWN
  else if b = 0x43 then KEY_RIGHT
  else if b = 0x44 then KEY_LEFT
  else 0x1b

/-- The function `read_input` on the stream of bytes that standard input
delivers: the key event and the rest of the stream.  A `Read` into a buffer
of `k` bytes takes `k` bytes, or all that is left when fewer are.  On an
empty stream the first loop never ends: the result is `none`. -/
def read_input : List Nat → Option (Nat × List Nat)
  | [] => none
  | c :: after =>
    if c = 0x1b then
      match after with
      | s0 :: s1 :: after2 =>
        if s0 = 0x5B then
          if 0x30 ≤ s1 ∧ s1 < 0x39 then
            match after2 with
            | [] => some (0x1b, [])
            | c1 :: after3 =>
              if c1 = 0x7E ∧ s1 = 0x33 then some (KEY_DEL, after3)
              else if c1 = 0x7E ∧ s1 = 0x35 then some (KEY_PG_UP, after3)
              else if c1 = 0x7E ∧ s1 = 0x36 then some (KEY_PG_DOWN, after3)
              else some (arrow_key s1, after3)
          else some (arrow_key s1, after2)
        else some (0x1b, after2)
      | _ => some (0x1b, [])
    else some (c, after)

/-- The loop `for i := editor.dim.y; i > 0; i-- { move_cursor(dir) }`. -/
def page_move (dir : Nat) : Nat → editor_state → Option editor_state
  | 0, s => some s
  | cnt + 1, s => (move_cursor dir s).bind (page_move dir cnt)

/-- The `switch` of `handle_key_event` on the key event `c`.  In the branch
that ends the process (`os.Exit`) the state is returned as it is. -/
def handle_key (w : world) (grow : Nat → Nat → Nat) (c : Nat) (s : editor_state) :
    Option editor_state :=
  if c = KEY_QUIT then
    (if s.clean || s.quit_attempted then some s
     else some { set_message "There are unsaved changes, press CTRL-Q again to force quit." s
                 with quit_attempted := true })
  else if c = KEY_SAVE then save w s
  else if c = KEY_NEW_LINE then new_line s
  else if c = KEY_DEL then (move_cursor KEY_RIGHT s).bind (del grow)
  else if c = KEY_BACKSPACE ∨ c = 0x08 then del grow s
  else if c = KEY_UP ∨ c = KEY_DOWN ∨ c = KEY_LEFT ∨ c = KEY_RIGHT then move_cursor c s
  else if c = KEY_PG_UP ∨ c = KEY_PG_DOWN then
    page_move (if c = KEY_PG_UP then KEY_UP else KEY_DOWN) s.dim.y s
  else if c = 0x1b then some s
  else insert grow (c % 256) s

/-- The function `handle_key_event`: one key event is read and handled. -/
def handle_key_event (w : world) (grow : Nat → Nat → Nat) (input : List Nat) (s : editor_state) :
    Option (editor_state × List Nat) := do
  let (c, after) ← read_input input
  let s1 ← handle_key w grow c s
  some (s1, after)

/-! ## Well-formed states -/

/-- A slice header that fits its backing array. -/
def slice.valid (h : Heap) (s : slice) : Prop :=
  s.len ≤ s.cap ∧ s.off + s.cap ≤ (h.array s.arr).length

instance (h : Heap) (s : slice) : Decidable (s.valid h) :=
  inferInstanceAs (Decidable (s.len ≤ s.cap ∧ s.off + s.cap ≤ (h.array s.arr).length))

/-- A line whose text fits its backing array and whose field `len` is the
length of its text. -/
def line_ok (h : Heap) (ln : line_t) : Prop := ln.text.valid h ∧ ln.len = ln.text.len

instance (h : Heap) (ln : line_t) : Decidable (line_ok h ln) :=
  inferInstanceAs (Decidable (ln.text.valid h ∧ ln.len = ln.text.len))

/-- The states of the embedding that stand for a state of the program: every
line is a slice of the heap with `len` equal to the length of its text, and
no keyword of the profile is the empty string. -/
def wf (s : editor_state) : Prop :=
  (∀ ln ∈ s.lines, line_ok s.heap ln) ∧ (∀ kw ∈ s.language.Keywords, kw ≠ [])

instance (s : editor_state) : Decidable (wf s) :=
  inferInstanceAs (Decidable
    ((∀ ln ∈ s.lines, line_ok s.heap ln) ∧ (∀ kw ∈ s.language.Keywords, kw ≠ [])))

/-- The cursor validity predicate. -/
def cursor_valid (s : editor_state) : Prop :=
  s.used_rows = s.lines.length ∧ s.cursor.y ≤ s.used_rows ∧
  (∀ ln ∈ s.lines[s.cursor.y]?, s.cursor.x ≤ ln.len) ∧
  (s.cursor.y = s.used_rows → s.cursor.x = 0)

instance (s : editor_state) : Decidable (cursor_valid s) :=
  inferInstanceAs (Decidable
    (s.used_rows = s.lines.length ∧ s.cursor.y ≤ s.used_rows ∧
      (∀ ln ∈ s.lines[s.cursor.y]?, s.cursor.x ≤ ln.len) ∧
      (s.cursor.y = s.used_rows → s.cursor.x = 0)))

/-- Every line has as many highlight classes as bytes of text. -/
def hl_len_ok (s : editor_state) : Prop :=
  ∀ ln ∈ s.lines, ln.highlight.length = ln.text.len

instance (s : editor_state) : Decidable (hl_len_ok s) :=
  inferInstanceAs (Decidable (∀ ln ∈ s.lines, ln.highlight.length = ln.text.len))

/-! ## States and parameters of the examples -/

/-- The profile of a C file. -/
def c_profile : Syntax := Setup_syntax Syntax.zero "main.c"

/-- A growth policy of `append`: twice the capacity that is needed. -/
def grow_twice : Nat → Nat → Nat := fun _ needed => 2 * needed

/-- An outside world in which the prompt returns `out.c` and nothing fails. -/
def world_ok : world := ⟨"out.c", false, none⟩

/-- The editor with the profile `lang` and the lines `texts`, each in a backing
array of its own with no spare capacity, with the highlights `hls` and the
cursor at `cursor`. -/
def state_of (lang : Syntax) (texts hls : List (List Nat)) (cursor : vector) : editor_state :=
  { heap := texts, file_name := "main.c", new_file := false, msg := "",
    dim := ⟨80, 22⟩, offset := ⟨0, 0⟩, cursor := cursor,
    used_rows := texts.length,
    lines := (List.range texts.length).map
      (fun k => ⟨⟨k, 0, (texts.getD k []).length, (texts.getD k []).length⟩, hls.getD k [],
                 (texts.getD k []).length⟩),
    clean := true, quit_attempted := false, language := lang, registry_var := lang }

/-- The one line `intx` of a C file, the cursor behind `int`. -/
def st_intx : editor_state := state_of c_profile [bs "intx"] [[0, 0, 0, 0]] ⟨3, 0⟩

/-! ## Commands -/

/-- The commands that move the cursor or edit the text: a call of
`move_cursor` with a key, and the branches of `handle_key_event` for Page-Up,
Page-Down, an ordinary byte (`insert`), Enter (`new_line`), Backspace (`del`)
and the forward-Delete key. -/
inductive command where
  | move (key : Nat)
  | page_up
  | page_down
  | insert (c : Nat)
  | new_line
  | del
  | forward_del
deriving DecidableEq, Repr

/-- The effect of a command. -/
def exec (w : world) (grow : Nat → Nat → Nat) : command → editor_state → Option editor_state
  | .move key, s => move_cursor key s
  | .page_up, s => handle_key w grow KEY_PG_UP s
  | .page_down, s => handle_key w grow KEY_PG_DOWN s
  | .insert c, s => insert grow c s
  | .new_line, s => new_line s
  | .del, s => del grow s
  | .forward_del, s => handle_key w grow KEY_DEL s

/-- The effect of a sequence of commands, from left to right. -/
def run (w : world) (grow : Nat → Nat → Nat) : List command → editor_state → Option editor_state
  | [], s => some s
  | cmd :: more, s => (exec w grow cmd s).bind (run w grow more)

/-- The commands `insert(c)` and `del()`. -/
def command.is_edit : command → Bool
  | .insert _ => true
  | .del => true
  | _ => false

/-- The escape sequences that `read_input` turns into a special key. -/
def recognised : List (List Nat × Nat) :=
  [([0x5B, 0x41], KEY_UP), ([0x5B, 0x42], KEY_DOWN), ([0x5B, 0x43], KEY_RIGHT),
   ([0x5B, 0x44], KEY_LEFT), ([0x5B, 0x33, 0x7E], KEY_DEL), ([0x5B, 0x35, 0x7E], KEY_PG_UP),
   ([0x5B, 0x36, 0x7E], KEY_PG_DOWN)]

/-- The highlight of every line is what the highlighter returns for its text. -/
def hl_synced (s : editor_state) : Prop :=
  ∀ ln ∈ s.lines, highlight_line s.language (ln.bytes s) ln.len = some ln.highlight

instance (s : editor_state) : Decidable (hl_synced s) :=
  inferInstanceAs (Decidable
    (∀ ln ∈ s.lines, highlight_line s.language (ln.bytes s) ln.len = some ln.highlight))

/-- The editor after `setup`, before a file is opened, in a terminal of 24
rows and 80 columns. -/
def st_start : editor_state :=
  { heap := [], file_name := "", new_file := false, msg := "",
    dim := ⟨80, 22⟩, offset := ⟨0, 0⟩, cursor := ⟨0, 0⟩, used_rows := 0, lines := [],
    clean := true, quit_attempted := false, language := Syntax.zero,
    registry_var := Syntax.zero }

/-- The keys that lead from the file `abc` to the state `st_shared`: Right,
Right, Enter, Left, Backspace, `X`. -/
def keys_shared : List command :=
  [.move KEY_RIGHT, .move KEY_RIGHT, .new_line, .move KEY_LEFT, .del, .insert 88]

/-- Two lines, `aX` and `c`, in one backing array: the array of the line `abc`
read from a file, after the line was split behind `ab`, the `b` deleted and an
`X` typed.  The cursor is at the end of the first line. -/
def st_shared : editor_state :=
  { heap := [[97, 88, 99, 10]], file_name := "main.c", new_file := false,
    msg := "CTRL-S to save",
    dim := ⟨80, 22⟩, offset := ⟨0, 0⟩, cursor := ⟨2, 0⟩, used_rows := 2,
    lines := [⟨⟨0, 0, 2, 4⟩, [0, 0], 2⟩, ⟨⟨0, 2, 1, 2⟩, [0], 1⟩],
    clean := false, quit_attempted := false, language := c_profile,
    registry_var := c_profile }

/-! ## String literals, as the specification describes them -/

/-- For each byte of `rest`, the bytes of a line from index `i` on, whether
it lies inside a string literal: `quote` is the quote that opened the literal
(0 outside of one) and `skip` counts the escaped bytes still to pass.  A
quote opens a literal and is not inside it; inside, a backslash that is not
the last byte of the line escapes the byte behind it, and the byte equal to
the opening quote closes the literal and is still inside it. -/
def in_string_from (len : Nat) : Nat → Nat → Nat → List Nat → List Bool
  | _, _, _, [] => []
  | quote, skip, i, b :: rest =>
    if 0 < skip then true :: in_string_from len quote (skip - 1) (i + 1) rest
    else if quote ≠ 0 then
      true ::
        (if b = 92 ∧ i + 1 < len then in_string_from len quote (skip + 1) (i + 1) rest
         else if b = quote then in_string_from len 0 skip (i + 1) rest
         else in_string_from len quote skip (i + 1) rest)
    else
      false ::
        (if b = 39 ∨ b = 34 then in_string_from len b skip (i + 1) rest
         else in_string_from len quote skip (i + 1) rest)

/-- For each byte of a line, whether it lies inside a string literal. -/
def in_string (text : List Nat) : List Bool := in_string_from text.length 0 0 0 text

/-! ## More states of the examples -/

/-- The one line `ab` of a C file, the cursor at its end. -/
def st_ab_end : editor_state := state_of c_profile [bs "ab"] [[0, 0]] ⟨2, 0⟩

/-- The one line `ab` of a C file, unchanged since it was loaded, the cursor at
the buffer start. -/
def st_ab_start : editor_state := state_of c_profile [bs "ab"] [[0, 0]] ⟨0, 0⟩

/-- An outside world in which the file cannot be opened for writing. -/
def world_no_open : world := ⟨"out.c", true, none⟩

/-- The keys that split the line `ab` behind `a` and bring the cursor back to
the end of the first half: Right, Enter, Up, Right. -/
def keys_split : List command :=
  [.move KEY_RIGHT, .new_line, .move KEY_UP, .move KEY_RIGHT]

/-- The two halves `a` and `b` of the line `ab`, read from a file and split
behind `a`: both are slices of the array that `ReadBytes` returned, the first
with a capacity that reaches over the second.  The cursor is back at the end
of the first half. -/
def st_split : editor_state :=
  { heap := [[97, 98, 10]], file_name := "main.c", new_file := false,
    msg := "CTRL-S to save",
    dim := ⟨80, 22⟩, offset := ⟨0, 0⟩, cursor := ⟨1, 0⟩, used_rows := 2,
    lines := [⟨⟨0, 0, 1, 3⟩, [0, 0], 1⟩, ⟨⟨0, 1, 1, 2⟩, [0], 1⟩],
    clean := false, quit_attempted := false, language := c_profile,
    registry_var := c_profile }

/-- The profiles of the registry: the values that `Setup_syntax` returns, from
the zero value of its package variable on. -/
inductive registry_profile : Syntax → Prop where
  | zero : registry_profile Syntax.zero
  | setup (prev : Syntax) (file_name : String) :
      registry_profile prev → registry_profile ( Setup_syntax prev file_name)

/-! ## The renderer: rows and the welcome banner -/

def NAME : String := "SEA"
def VERSION : String := "0.2.2"
def AUTHOR : String := "Aaron Goidel"
def EMAIL : String := "acgoidel@gmail.com"

/-- The record `buf`: the output buffer and its length, a `uint`. -/
structure buf where
  buffer : List Nat
  len : Nat
deriving DecidableEq, Repr

def add_to_buffer (b : buf) (str : List Nat) : buf :=
  ⟨b.buffer ++ str, uadd b.len str.length⟩

/-- The loop `for padding > 0 { add_to_buffer(b, " "); padding-- }`. -/
def pad_loop : Nat → buf → buf
  | 0, b => b
  | padding + 1, b => pad_loop padding (add_to_buffer b (bs " "))

/-- The value that `center_msg` gives its variable `padding`, for a terminal
of `dim_x` columns: a subtraction and a division of `uint`. -/
def center_padding (dim_x print_len : Nat) : Nat := usub dim_x print_len / 2

def center_msg (s : editor_state) (b : buf) (msg : List Nat) (print_len : Nat) : buf :=
  let msg_len := if s.dim.x < msg.length then s.dim.x else msg.length
  let padding := center_padding s.dim.x print_len
  let b1 := if 0 < padding then add_to_buffer b (bs "~") else b
  let padding1 := if 0 < padding then padding - 1 else padding
  add_to_buffer (pad_loop padding1 b1) (msg.take msg_len)

/-- The string `title` of `print_welcome`. -/
def welcome_title : List Nat :=
  bs ("\x1b[36m" ++ NAME ++ "\x1b[m" ++ " --- " ++ "\x1b[32m" ++ "v" ++ VERSION ++ "\x1b[m")

/-- The string `byline` of `print_welcome`. -/
def welcome_byline : List Nat :=
  bs ("Created by: " ++ "\x1b[36m" ++ AUTHOR ++ "\x1b[m" ++ " " ++ "\x1b[32m" ++ "<" ++ EMAIL
      ++ ">" ++ "\x1b[m")

def print_welcome (s : editor_state) (b : buf) : buf :=
  let b1 := center_msg s b welcome_title ((NAME ++ VERSION).length + 5)
  let b2 := add_to_buffer b1 (bs "\x1b[K")
  let b3 := add_to_buffer b2 (bs "\r\n~\r\n")
  center_msg s b3 welcome_byline ((AUTHOR ++ EMAIL).length + 13)

/-- The conversion `string(char)` of a byte: the UTF-8 encoding of the code
point with that number. -/
def byte_string (char : Nat) : List Nat :=
  if char < 128 then [char] else [192 + char / 64, 128 + char % 64]

/-- The loop `for i, char := range editor.lines[row].text[editor.offset.x:cutoff]`
of `draw_rows`: a colour sequence where the class of the byte differs from that
of the byte before, then the byte. -/
def draw_line (is_highlighted : Bool) (line_highlights : List Nat) :
    List Nat → Nat → Nat → buf → Option buf
  | [], _, _, b => some b
  | char :: more, i, current_highlight, b =>
    if is_highlighted then
      match line_highlights[i]? with
      | none => none
      | some color =>
        let b1 :=
          if current_highlight ≠ color then
            add_to_buffer b (bs "\x1b[" ++ bs (toString color) ++ bs "m")
          else b
        draw_line is_highlighted line_highlights more (i + 1) color
          (add_to_buffer b1 (byte_string char))
    else
      draw_line is_highlighted line_highlights more (i + 1) current_highlight
        (add_to_buffer b (byte_string char))

/-- The branch of `draw_rows` for a row of the document. -/
def draw_text_row (s : editor_state) (line : line_t) (b : buf) : Option buf :=
  if line.len ≤ s.offset.x then some b
  else
    let len := if s.dim.x < usub line.len s.offset.x then s.dim.x else usub line.len s.offset.x
    let cutoff := uadd len s.offset.x
    (if s.offset.x ≤ cutoff ∧ cutoff ≤ line.highlight.length then
       some ((line.highlight.drop s.offset.x).take (cutoff - s.offset.x))
     else none).bind fun line_highlights =>
    (line.text.sub s.offset.x cutoff).bind fun shown =>
    (draw_line s.language.Is_highlighted line_highlights (shown.bytes s.heap) 0 H_NONE b).bind
      fun b1 => some (add_to_buffer b1 (bs "\x1b[m"))

/-- The loop `for start_row = 0; start_row < editor.dim.y; start_row++` of
`draw_rows`; the first argument bounds the number of iterations left, which is
at most `dim.y - start_row`. -/
def draw_rows_loop (s : editor_state) : Nat → Nat → buf → Option buf
  | 0, _, b => some b
  | fuel + 1, start_row, b =>
    if start_row < s.dim.y then
      let row := uadd start_row s.offset.y
      (if s.used_rows ≤ row then
         (if s.used_rows = 0 ∧ start_row = s.dim.y / 4 then
            some (print_welcome s b, start_row + 2)
          else some (add_to_buffer b (bs "~"), start_row))
       else
         (s.lines[row]?).bind fun line =>
         (draw_text_row s line b).map fun b1 => (b1, start_row)).bind fun r =>
      draw_rows_loop s fuel (r.2 + 1)
        (add_to_buffer (add_to_buffer r.1 (bs "\x1b[K")) (bs "\r\n"))
    else some b

def draw_rows (s : editor_state) (b : buf) : Option buf := draw_rows_loop s s.dim.y 0 b

/-- The empty, unnamed buffer in a terminal of 24 rows and 40 columns. -/
def st_narrow : editor_state := { st_start with dim := ⟨40, 22⟩ }

/-! ## The highlighter is total -/

theorem store_some {a : List Nat} {k : Nat} (v : Nat) (h : k < a.length) :
    store a k v = some (a.set k v) := by
  simp [store, h]

theorem fill_up_total (base v : Nat) : ∀ (cnt j : Nat) (hl : List Nat),
    base + j + cnt ≤ hl.length →
    ∃ hl1, fill_up base v cnt j hl = some hl1 ∧ hl1.length = hl.length
  | 0, _, hl, _ => ⟨hl, rfl, rfl⟩
  | cnt + 1, j, hl, h => by
    have hk : base + j < hl.length := by omega
    obtain ⟨hl1, h1, h2⟩ := fill_up_total base v cnt (j + 1) (hl.set (base + j) v)
      (by simp; omega)
    exact ⟨hl1, by simp [fill_up, store_some v hk, h1], by simpa using h2⟩

theorem fill_down_total (i : Nat) : ∀ (cnt : Nat) (hl : List Nat),
    i + cnt ≤ hl.length →
    ∃ hl1, fill_down i cnt hl = some hl1 ∧ hl1.length = hl.length
  | 0, hl, _ => ⟨hl, rfl, rfl⟩
  | cnt + 1, hl, h => by
    have hk : i + cnt < hl.length := by omega
    obtain ⟨hl1, h1, h2⟩ := fill_down_total i cnt (hl.set (i + cnt) H_NUM) (by simp; omega)
    exact ⟨hl1, by simp [fill_down, store_some _ hk, h1], by simpa using h2⟩

theorem hex_scan_total (text : List Nat) : ∀ (cnt j : Nat), j + cnt ≤ text.length →
    ∃ b j1, hex_scan text cnt j = some (b, j1) ∧ j1 ≤ j + cnt
  | 0, j, _ => ⟨true, j, rfl, by omega⟩
  | cnt + 1, j, h => by
    have hj : j < text.length := by omega
    obtain ⟨b, j1, h1, h2⟩ := hex_scan_total text cnt (j + 1) (by omega)
    simp only [hex_scan, List.getElem?_eq_getElem hj]
    split
    · exact ⟨true, j, rfl, by omega⟩
    · split
      · exact ⟨false, j, rfl, by omega⟩
      · exact ⟨b, j1, h1, by omega⟩

theorem keyword_at_total (rest : List Nat) (i : Nat) (kw : List Nat) (kw_type : Nat)
    (hl : List Nat) (next : Option (List Nat)) (h : i + rest.length ≤ hl.length)
    (hn : ∃ hl1, next = some hl1 ∧ hl1.length = hl.length) :
    ∃ hl1, keyword_at rest i kw kw_type hl next = some hl1 ∧ hl1.length = hl.length := by
  simp only [keyword_at]
  split
  · exact hn
  · split
    · split
      · exact fill_up_total i _ _ 0 hl (by omega)
      · have hlt : kw.length < rest.length := by omega
        simp only [List.getElem?_eq_getElem hlt]
        split
        · exact fill_up_total i _ _ 0 hl (by omega)
        · exact hn
    · exact hn

theorem keyword_loop_total (rest : List Nat) (i : Nat) : ∀ (kws : List (List Nat)) (hl : List Nat),
    (∀ kw ∈ kws, kw ≠ []) → i + rest.length ≤ hl.length →
    ∃ hl1, keyword_loop rest i kws hl = some hl1 ∧ hl1.length = hl.length
  | [], hl, _, _ => ⟨hl, rfl, rfl⟩
  | keyword :: more, hl, hk, h => by
    have ih := keyword_loop_total rest i more hl (fun kw hkw => hk kw (List.mem_cons_of_mem _ hkw)) h
    have hne : keyword ≠ [] := hk keyword (List.mem_cons_self _ _)
    simp only [keyword_loop, hne, if_false]
    split
    · exact keyword_at_total _ _ _ _ _ _ h ih
    · exact keyword_at_total _ _ _ _ _ _ h ih

theorem hex_literal_total (text : List Nat) (i : Nat) (hl : List Nat)
    (hi : i + 2 ≤ text.length) (h : hl.length = text.length) :
    ∃ hl1, hex_literal text text.length i hl = some hl1 ∧ hl1.length = text.length := by
  obtain ⟨b, j1, h1, h2⟩ := hex_scan_total text (text.length - (i + 2)) (i + 2) (by omega)
  simp only [hex_literal, h1]
  split
  · obtain ⟨hl1, h3, h4⟩ := fill_down_total i (j1 - i) hl (by omega)
    exact ⟨hl1, h3, by omega⟩
  · exact ⟨hl, rfl, h⟩

theorem hl_word_total (lang : Syntax) (text : List Nat) (i char : Nat) (st : hl_state)
    (hk : ∀ kw ∈ lang.Keywords, kw ≠ []) (hi : i < text.length)
    (hl : st.hl.length = text.length) :
    ∃ st1, hl_word lang text text.length i char st = some st1 ∧ st1.hl.length = text.length
      ∧ st1.skip = st.skip ∧ st1.string_char = st.string_char := by
  have hprev : ∃ p, (if 0 < i then st.hl[i - 1]? else some H_NONE) = some p := by
    split
    · exact ⟨st.hl[i - 1], List.getElem?_eq_getElem (by omega)⟩
    · exact ⟨_, rfl⟩
  obtain ⟨p, hp⟩ := hprev
  have hhex : ∃ hl1, (if (( bs "0x").isPrefixOf (text.drop i) && st.new_word) = true
      then hex_literal text text.length i st.hl else some st.hl) = some hl1
      ∧ hl1.length = text.length := by
    split
    · rename_i hc
      simp only [Bool.and_eq_true, List.isPrefixOf_iff_prefix] at hc
      have h2 := hc.1.length_le
      simp [bs] at h2
      exact hex_literal_total text i st.hl (by omega) hl
    · exact ⟨_, rfl, hl⟩
  obtain ⟨hl1, hh1, hh2⟩ := hhex
  unfold hl_word
  simp only [hp, hh1, Option.bind_eq_bind, Option.some_bind, bind, Option.bind]
  generalize ((is_digit char && (st.new_word || decide (p = H_NUM)))
              || (decide (char = 46) && decide (p = H_NUM))) = num
  have hst : ∃ hl2, (if num = true then store hl1 i H_NUM else some hl1) = some hl2
      ∧ hl2.length = text.length := by
    split
    · exact ⟨_, store_some _ (by omega), by simp [hh2]⟩
    · exact ⟨_, rfl, hh2⟩
  obtain ⟨hl2, hs1, hs2⟩ := hst
  simp only [hs1, Option.some_bind]
  generalize (if num = true then false else st.new_word) = nw
  have hkw : ∃ hl3, (if nw = true
      then keyword_loop (text.drop i) i lang.Keywords hl2 else some hl2) = some hl3
      ∧ hl3.length = text.length := by
    split
    · obtain ⟨hl3, h3, h4⟩ := keyword_loop_total (text.drop i) i lang.Keywords hl2 hk
        (by simp; omega)
      exact ⟨hl3, h3, by omega⟩
    · exact ⟨_, rfl, hs2⟩
  obtain ⟨hl3, hk1, hk2⟩ := hkw
  simp only [hk1, Option.some_bind]
  exact ⟨_, rfl, hk2, rfl, rfl⟩

theorem hl_loop_total (lang : Syntax) (text : List Nat)
    (hk : ∀ kw ∈ lang.Keywords, kw ≠ []) : ∀ (cnt i : Nat) (st : hl_state),
    i + cnt = text.length → st.hl.length = text.length →
    ∃ hl1, hl_loop lang text text.length cnt i st = some hl1 ∧ hl1.length = text.length
  | 0, _, st, _, h => ⟨st.hl, rfl, h⟩
  | cnt + 1, i, st, hi, h => by
    have hlt : i < text.length := by omega
    have ih := fun st1 => hl_loop_total lang text hk cnt (i + 1) st1 (by omega)
    simp only [hl_loop, List.getElem?_eq_getElem hlt]
    split
    · exact ih _ h
    · split
      · obtain ⟨hl1, h1, h2⟩ := fill_up_total i H_COMMENT (text.drop i).length 0 st.hl
          (by simp; omega)
        exact ⟨hl1, h1, by omega⟩
      · split
        · simp only [store_some H_STR (show i < st.hl.length by omega)]
          split
          · rename_i hc
            simp only [store_some H_STR (show i + 1 < (st.hl.set i H_STR).length by
              simp; omega)]
            exact ih _ (by simp [h])
          · split
            · exact ih _ (by simp [h])
            · exact ih _ (by simp [h])
        · split
          · simp only [store_some H_STR (show i < st.hl.length by omega)]
            exact ih _ (by simp [h])
          · obtain ⟨st1, h1, h2, _⟩ := hl_word_total lang text i text[i] st hk hlt h
            simp only [h1]
            exact ih _ h2

/-- The highlighter returns, for every text and every profile without an empty
keyword, an array with one class for each byte of the text. -/
theorem highlight_line_total (lang : Syntax) (text : List Nat)
    (hk : ∀ kw ∈ lang.Keywords, kw ≠ []) :
    ∃ hl, highlight_line lang text text.length = some hl ∧ hl.length = text.length :=
  hl_loop_total lang text hk text.length 0 _ (by omega) (by simp)

/-- The loop that marks a run of bytes, in closed form. -/
theorem fill_up_eq (base v : Nat) : ∀ (cnt j : Nat) (hl : List Nat),
    base + j + cnt ≤ hl.length →
    fill_up base v cnt j hl
      = some (hl.take (base + j) ++ List.replicate cnt v ++ hl.drop (base + j + cnt))
  | 0, j, hl, _ => by simp [fill_up]
  | cnt + 1, j, hl, h => by
    have hk : base + j < hl.length := by omega
    rw [fill_up, store_some v hk, Option.some_bind,
      fill_up_eq base v cnt (j + 1) _ (by simp; omega)]
    congr 1
    rw [List.set_eq_take_append_cons_drop, if_pos hk]
    have e1 : base + (j + 1) = base + j + 1 := by omega
    have e2 : base + j + 1 + cnt = base + j + (cnt + 1) := by omega
    rw [e1, List.take_append_eq_append_take, List.drop_append_eq_append_drop]
    simp [List.take_take, List.replicate_succ, e2, Nat.min_eq_left hk.le]

/-! ## The heap -/

theorem Heap.array_append_lt (h : Heap) (a : List Nat) {k : Nat} (hk : k < h.length) :
    Heap.array (h ++ [a]) k = Heap.array h k := by
  simp [Heap.array, List.getElem?_append_left hk]

theorem Heap.array_append_eq (h : Heap) (a : List Nat) :
    Heap.array (h ++ [a]) h.length = a := by
  simp [Heap.array]

theorem Heap.array_of_le (h : Heap) {k : Nat} (hk : h.length ≤ k) : Heap.array h k = [] := by
  simp [Heap.array, List.getElem?_eq_none hk]

theorem slice.bytes_length {h : Heap} {s : slice} (hv : s.valid h) :
    (s.bytes h).length = s.len := by
  obtain ⟨h1, h2⟩ := hv
  simp only [slice.bytes, List.length_take, List.length_drop]
  omega

theorem slice.valid_extend {h : Heap} {s : slice} (a : List Nat) (hv : s.valid h) :
    s.valid (h ++ [a]) := by
  obtain ⟨h1, h2⟩ := hv
  refine ⟨h1, ?_⟩
  by_cases hk : s.arr < h.length
  · rw [Heap.array_append_lt h a hk]; exact h2
  · rw [Heap.array_of_le h (Nat.le_of_not_lt hk)] at h2
    simp only [List.length_nil] at h2
    omega

theorem slice.bytes_extend {h : Heap} {s : slice} (a : List Nat) (hv : s.valid h) :
    s.bytes (h ++ [a]) = s.bytes h := by
  by_cases hk : s.arr < h.length
  · simp only [slice.bytes, Heap.array_append_lt h a hk]
  · obtain ⟨h1, h2⟩ := hv
    rw [Heap.array_of_le h (Nat.le_of_not_lt hk)] at h2
    simp only [List.length_nil] at h2
    have h0 : s.len = 0 := by omega
    simp [slice.bytes, h0]

theorem write_at_length {a : List Nat} {pos : Nat} {xs : List Nat}
    (h : pos + xs.length ≤ a.length) : (write_at a pos xs).length = a.length := by
  simp only [write_at, List.length_append, List.length_take, List.length_drop]
  omega

theorem Heap.write_array (h : Heap) (arr pos : Nat) (xs : List Nat) (k : Nat)
    (hb : pos + xs.length ≤ (h.array arr).length) :
    (h.write arr pos xs).array k =
      if k = arr then write_at (h.array arr) pos xs else h.array k := by
  by_cases hk : k = arr
  · subst hk
    by_cases hlt : k < h.length
    · simp [Heap.write, Heap.array, List.getElem?_set, hlt]
    · have hnil : h.array k = [] := Heap.array_of_le h (Nat.le_of_not_lt hlt)
      rw [hnil] at hb
      simp only [List.length_nil] at hb
      have hx : xs = [] := List.length_eq_zero.mp (by omega)
      have hp : pos = 0 := by omega
      have hw : (h.write k pos xs).array k = [] :=
        Heap.array_of_le _ (by simp [Heap.write]; omega)
      rw [hw]; simp [hnil, write_at, hx]
  · have hk2 : ¬ arr = k := fun e => hk e.symm
    simp [Heap.write, Heap.array, List.getElem?_set, hk, hk2]

theorem Heap.write_array_length (h : Heap) (arr pos : Nat) (xs : List Nat) (k : Nat)
    (hb : pos + xs.length ≤ (h.array arr).length) :
    ((h.write arr pos xs).array k).length = (h.array k).length := by
  rw [Heap.write_array h arr pos xs k hb]
  split
  · rename_i hk; subst hk; exact write_at_length hb
  · rfl

theorem slice.valid_write {h : Heap} {s : slice} (arr pos : Nat) (xs : List Nat)
    (hb : pos + xs.length ≤ (h.array arr).length) (hv : s.valid h) :
    s.valid (h.write arr pos xs) := by
  obtain ⟨h1, h2⟩ := hv
  exact ⟨h1, by rw [Heap.write_array_length h arr pos xs _ hb]; exact h2⟩

/-- After `append(s, xs...)` every slice that fitted the heap still does. -/
theorem go_append_keeps_valid (grow : Nat → Nat → Nat) {h : Heap} {s t : slice}
    (xs : List Nat) (hs : s.valid h) (ht : t.valid h) :
    t.valid (go_append grow h s xs).1 := by
  unfold go_append
  split
  · exact slice.valid_write _ _ _ (by have := hs.2; omega) ht
  · exact slice.valid_extend _ ht

/-- The result of `append(s, xs...)` fits the heap and has the length of `s`
plus that of `xs`. -/
theorem go_append_valid (grow : Nat → Nat → Nat) {h : Heap} {s : slice}
    (xs : List Nat) (hs : s.valid h) :
    (go_append grow h s xs).2.valid (go_append grow h s xs).1 ∧
    (go_append grow h s xs).2.len = s.len + xs.length := by
  unfold go_append
  split
  · rename_i hc
    refine ⟨?_, rfl⟩
    have hv : s.valid (h.write s.arr (s.off + s.len) xs) :=
      slice.valid_write _ _ _ (by have := hs.2; omega) hs
    exact ⟨hc, hv.2⟩
  · refine ⟨⟨Nat.le_max_left _ _, ?_⟩, rfl⟩
    have hl := slice.bytes_length hs
    simp only [Heap.array_append_eq, List.length_append, List.length_replicate, hl]
    have := Nat.le_max_left (s.len + xs.length) (grow s.cap (s.len + xs.length))
    omega

theorem take_drop_write_at (a : List Nat) (off len : Nat) (xs : List Nat)
    (hb : off + len + xs.length ≤ a.length) :
    ((write_at a (off + len) xs).drop off).take (len + xs.length)
      = (a.drop off).take len ++ xs := by
  have h1 : off ≤ (List.take (off + len) a).length := by
    simp only [List.length_take]; omega
  have h2 : (List.drop off (List.take (off + len) a)).length = len := by
    simp only [List.length_drop, List.length_take]; omega
  simp only [write_at]
  rw [List.append_assoc, List.drop_append_of_le_length h1, List.take_append_eq_append_take, h2,
    List.take_of_length_le (by omega)]
  have h3 : len + xs.length - len = xs.length := by omega
  rw [h3, List.take_append_eq_append_take, List.take_of_length_le (le_refl _)]
  simp only [Nat.sub_self, List.take_zero, List.append_nil, List.append_cancel_right_eq]
  rw [List.drop_take]
  have h4 : off + len - off = len := by omega
  rw [h4]

/-- The result of `append(s, xs...)` holds the bytes of `s` followed by `xs`. -/
theorem go_append_bytes (grow : Nat → Nat → Nat) {h : Heap} {s : slice}
    (xs : List Nat) (hs : s.valid h) :
    (go_append grow h s xs).2.bytes (go_append grow h s xs).1 = s.bytes h ++ xs := by
  have hl := slice.bytes_length hs
  unfold go_append
  split
  · rename_i hc
    have hb : s.off + s.len + xs.length ≤ (h.array s.arr).length := by
      have := hs.2; omega
    simp only [slice.bytes, Heap.write_array h _ _ xs _ hb, if_true]
    exact take_drop_write_at _ _ _ _ hb
  · simp only [slice.bytes, Heap.array_append_eq, List.drop_zero]
    rw [List.take_append_eq_append_take]
    have h5 : (s.bytes h ++ xs).length = s.len + xs.length := by simp [hl]
    simp only [slice.bytes] at h5
    rw [List.take_of_length_le (by omega), h5]
    simp

/-! ## Lists of lines -/

theorem forall_mem_set {α : Type} {P : α → Prop} {L : List α} (k : Nat) {v : α}
    (hL : ∀ a ∈ L, P a) (hv : P v) : ∀ a ∈ L.set k v, P a := by
  intro a ha
  rcases List.mem_or_eq_of_mem_set ha with h | h
  · exact hL a h
  · exact h ▸ hv

theorem forall_mem_insert_at {α : Type} {P : α → Prop} {L : List α} (k : Nat) {v : α}
    (hL : ∀ a ∈ L, P a) (hv : P v) : ∀ a ∈ L.take k ++ v :: L.drop k, P a := by
  intro a ha
  rcases List.mem_append.mp ha with h | h
  · exact hL a (List.mem_of_mem_take h)
  · rcases List.mem_cons.mp h with h | h
    · exact h ▸ hv
    · exact hL a (List.mem_of_mem_drop h)

theorem forall_mem_remove_at {α : Type} {P : α → Prop} {L : List α} (k : Nat)
    (hL : ∀ a ∈ L, P a) : ∀ a ∈ L.take k ++ L.drop (k + 1), P a := by
  intro a ha
  rcases List.mem_append.mp ha with h | h
  · exact hL a (List.mem_of_mem_take h)
  · exact hL a (List.mem_of_mem_drop h)

theorem getElem?_insert_at {α : Type} (L : List α) (k : Nat) (v : α) (hk : k ≤ L.length) :
    (L.take k ++ v :: L.drop k)[k]? = some v := by
  have h : (L.take k).length = k := by simp; omega
  rw [List.getElem?_append_right (by omega), h]
  simp

theorem set_insert_at {α : Type} (L : List α) (k : Nat) (v w : α) (hk : k ≤ L.length) :
    (L.take k ++ v :: L.drop k).set k w = L.take k ++ w :: L.drop k := by
  have h : (L.take k).length = k := by simp; omega
  rw [List.set_append_right _ _ (by omega), h]
  simp

/-! ## The operations on well-formed states -/

@[simp] theorem modified_heap (s : editor_state) : (modified s).heap = s.heap := rfl
@[simp] theorem modified_lines (s : editor_state) : (modified s).lines = s.lines := rfl
@[simp] theorem modified_cursor (s : editor_state) : (modified s).cursor = s.cursor := rfl
@[simp] theorem modified_used_rows (s : editor_state) : (modified s).used_rows = s.used_rows := rfl
@[simp] theorem modified_language (s : editor_state) : (modified s).language = s.language := rfl
@[simp] theorem modified_clean (s : editor_state) : (modified s).clean = false := rfl
@[simp] theorem modified_quit_attempted (s : editor_state) :
    (modified s).quit_attempted = false := rfl

/-- On a well-formed state `add_line` puts a line with text `line`, highlighted,
at index `loc`. -/
theorem add_line_spec (loc : Nat) (line : slice) (s : editor_state)
    (hw : ∀ kw ∈ s.language.Keywords, kw ≠ []) (hu : s.used_rows = s.lines.length)
    (hloc : loc ≤ s.used_rows) (hv : line.valid s.heap) :
    ∃ hl, highlight_line s.language (line.bytes s.heap) line.len = some hl ∧
      hl.length = line.len ∧
      add_line loc line s = some (modified { s with
        lines := s.lines.take loc ++ ⟨line, hl, line.len⟩ :: s.lines.drop loc,
        used_rows := s.used_rows + 1 }) := by
  obtain ⟨hl, h1, h2⟩ := highlight_line_total s.language (line.bytes s.heap) hw
  rw [slice.bytes_length hv] at h1 h2
  refine ⟨hl, h1, h2, ?_⟩
  have hle : loc ≤ s.lines.length := by omega
  have hlines : (if loc = s.used_rows then some (s.lines ++ [(⟨line, [], line.len⟩ : line_t)])
      else if loc = 0 then some (⟨line, [], line.len⟩ :: s.lines)
      else if loc ≤ s.lines.length then
        some (s.lines.take loc ++ ⟨line, [], line.len⟩ :: s.lines.drop loc)
      else none) = some (s.lines.take loc ++ ⟨line, [], line.len⟩ :: s.lines.drop loc) := by
    split
    · rename_i h; subst h; simp [hu]
    · split
      · rename_i h; subst h; simp
      · simp [hle]
  unfold add_line
  rw [if_neg (by omega)]
  simp only [hlines, Option.some_bind, getElem?_insert_at _ _ _ hle, h1,
    set_insert_at _ _ _ _ hle]

/-! ## Cursor moves -/

/-- The `switch` of `move_cursor` changes the cursor only, and leaves its row
within the document. -/
theorem move_step_spec (key : Nat) (s : editor_state) (hu : s.used_rows = s.lines.length)
    (hy : s.cursor.y ≤ s.used_rows) :
    ∃ c : vector, move_step key s = some { s with cursor := c } ∧ c.y ≤ s.used_rows := by
  unfold move_step
  split
  · split
    · exact ⟨_, rfl, by simp only; omega⟩
    · exact ⟨s.cursor, rfl, hy⟩
  · split
    · split
      · exact ⟨_, rfl, by simp only; omega⟩
      · exact ⟨s.cursor, rfl, hy⟩
    · split
      · split
        · exact ⟨_, rfl, by simp only; omega⟩
        · split
          · have hlt : s.cursor.y - 1 < s.lines.length := by omega
            rw [List.getElem?_eq_getElem hlt]
            exact ⟨_, rfl, by simp only; omega⟩
          · exact ⟨s.cursor, rfl, hy⟩
      · split
        · split
          · rename_i hlt
            rw [List.getElem?_eq_getElem (by omega)]
            simp only [Option.map_some']
            split
            · exact ⟨_, rfl, by simp only; omega⟩
            · split
              · exact ⟨_, rfl, by simp only; omega⟩
              · exact ⟨s.cursor, rfl, hy⟩
          · exact ⟨s.cursor, rfl, hy⟩
        · exact ⟨s.cursor, rfl, hy⟩

/-- The end of `move_cursor` makes the cursor valid. -/
theorem clamp_x_spec (s : editor_state) (hu : s.used_rows = s.lines.length)
    (hy : s.cursor.y ≤ s.used_rows) :
    ∃ c : vector, clamp_x s = some { s with cursor := c } ∧ c.y = s.cursor.y ∧
      cursor_valid { s with cursor := c } := by
  unfold clamp_x
  by_cases hlt : s.cursor.y < s.used_rows
  · have hl : s.cursor.y < s.lines.length := by omega
    simp only [hlt, if_true, List.getElem?_eq_getElem hl, Option.map_some', Option.some_bind]
    split
    · refine ⟨_, rfl, rfl, hu, hy, ?_, ?_⟩
      · intro ln hln
        simp only [List.getElem?_eq_getElem hl, Option.mem_def, Option.some.injEq] at hln
        subst hln; exact le_refl _
      · intro h; simp only at h; omega
    · refine ⟨s.cursor, rfl, rfl, hu, hy, ?_, ?_⟩
      · intro ln hln
        simp only [List.getElem?_eq_getElem hl, Option.mem_def, Option.some.injEq] at hln
        subst hln; simp only; omega
      · intro h; simp only at h; omega
  · have he : s.cursor.y = s.used_rows := by omega
    have hnone : s.lines[s.cursor.y]? = none := List.getElem?_eq_none (by omega)
    simp only [hlt, if_false, Option.some_bind]
    split
    · refine ⟨_, rfl, rfl, hu, hy, ?_, fun _ => rfl⟩
      intro ln hln
      simp only [hnone, Option.mem_def] at hln
      exact absurd hln (by simp)
    · refine ⟨s.cursor, rfl, rfl, hu, hy, ?_, fun _ => by simp only; omega⟩
      intro ln hln
      simp only [hnone, Option.mem_def] at hln
      exact absurd hln (by simp)

/-- Every call of `move_cursor` on a valid state returns, changes the cursor
only, and leaves it valid. -/
theorem move_cursor_spec (key : Nat) (s : editor_state) (hc : cursor_valid s) :
    ∃ c : vector, move_cursor key s = some { s with cursor := c } ∧
      cursor_valid { s with cursor := c } := by
  obtain ⟨c1, h1, h2⟩ := move_step_spec key s hc.1 hc.2.1
  obtain ⟨c2, h3, _, h5⟩ := clamp_x_spec { s with cursor := c1 } hc.1 h2
  exact ⟨c2, by simp only [move_cursor, h1, Option.some_bind, h3], h5⟩

/-- The loop of Page-Up and Page-Down returns, changes the cursor only, and
leaves it valid. -/
theorem page_move_spec (dir : Nat) : ∀ (n : Nat) (s : editor_state), cursor_valid s →
    ∃ c : vector, page_move dir n s = some { s with cursor := c } ∧
      cursor_valid { s with cursor := c }
  | 0, s, hc => ⟨s.cursor, rfl, hc⟩
  | n + 1, s, hc => by
    obtain ⟨c1, h1, h2⟩ := move_cursor_spec dir s hc
    obtain ⟨c2, h3, h4⟩ := page_move_spec dir n _ h2
    exact ⟨c2, by simp only [page_move, h1, Option.some_bind, h3], h4⟩

theorem wf_with_cursor (s : editor_state) (c : vector) (hw : wf s) :
    wf { s with cursor := c } := hw

/-! ## Inserting a byte -/

theorem slice.sub_valid {h : Heap} {s t : slice} {lo hi : Nat} (hv : s.valid h)
    (ht : s.sub lo hi = some t) :
    t.valid h ∧ t.len = hi - lo ∧ lo ≤ hi ∧ hi ≤ s.cap ∧
      t = ⟨s.arr, s.off + lo, hi - lo, s.cap - lo⟩ := by
  unfold slice.sub at ht
  split at ht
  · rename_i hc
    simp only [Option.some.injEq] at ht
    subst ht
    obtain ⟨h1, h2⟩ := hv
    exact ⟨⟨by simp only; omega, by simp only; omega⟩, rfl, hc.1, hc.2, rfl⟩
  · exact absurd ht (by simp)

theorem slice.sub_some (s : slice) {lo hi : Nat} (h1 : lo ≤ hi) (h2 : hi ≤ s.cap) :
    s.sub lo hi = some ⟨s.arr, s.off + lo, hi - lo, s.cap - lo⟩ := by
  simp [slice.sub, h1, h2]

theorem alloc_valid (h : Heap) (content : List Nat) :
    (alloc h content).2.valid (alloc h content).1 ∧
    (alloc h content).2.bytes (alloc h content).1 = content := by
  simp [alloc, slice.valid, slice.bytes, Heap.array_append_eq]

/-- The text of a line after the byte `c` went in at column `loc`. -/
theorem insert_text_spec (grow : Nat → Nat → Nat) (c loc : Nat) (h : Heap) (line : line_t)
    (hl : line_ok h line) (hloc : loc ≤ line.len) :
    ∃ r, insert_text grow c loc h line = some r ∧ r.2.valid r.1 ∧ r.2.len = line.len + 1 ∧
      (∀ t : slice, t.valid h → t.valid r.1) ∧
      r.2.bytes r.1 = (line.text.bytes h).take loc ++ c :: (line.text.bytes h).drop loc := by
  obtain ⟨hv, hlen⟩ := hl
  have hbl := slice.bytes_length hv
  unfold insert_text
  rw [if_neg (by omega)]
  split
  · rename_i h0
    subst h0
    have hsrc : List.take line.len (line.text.bytes h) ++
        List.replicate (line.len - (line.text.bytes h).length) 0 = line.text.bytes h := by
      rw [hbl, hlen]; simp [List.take_of_length_le (le_of_eq hbl)]
    simp only [hsrc]
    refine ⟨_, rfl, (alloc_valid _ _).1, ?_, fun t ht => slice.valid_extend _ ht, ?_⟩
    · simp [alloc, hbl, hlen]
    · rw [(alloc_valid _ _).2]; simp
  · have h1 : line.text.tail_from loc
        = some ⟨line.text.arr, line.text.off + loc, line.text.len - loc, line.text.cap - loc⟩ :=
      slice.sub_some _ (by omega) hv.1
    have h2 : line.text.head_to loc
        = some ⟨line.text.arr, line.text.off + 0, loc - 0, line.text.cap - 0⟩ :=
      slice.sub_some _ (by omega) (by have := hv.1; omega)
    have hhd : slice.valid h ⟨line.text.arr, line.text.off + 0, loc - 0, line.text.cap - 0⟩ := by
      have := hv.1; have := hv.2
      exact ⟨by simp only; omega, by simp only; omega⟩
    simp only [h1, h2, Option.some_bind]
    refine ⟨_, rfl, (go_append_valid grow _ hhd).1, ?_,
      fun t ht => go_append_keeps_valid grow _ hhd ht, ?_⟩
    · rw [(go_append_valid grow _ hhd).2]
      simp [slice.bytes_length (slice.sub_valid hv h1).1]; omega
    · rw [go_append_bytes grow _ hhd]
      simp only [slice.bytes, Nat.add_zero, Nat.sub_zero, List.take_take, List.drop_take,
        List.drop_drop]
      have : min loc line.text.len = loc := by omega
      rw [this]

/-- The effect of `insert` when the cursor is on a line of the document. -/
theorem insert_on_line (grow : Nat → Nat → Nat) (c : Nat) (s : editor_state) (line : line_t)
    (hw : wf s) (hu : s.used_rows = s.lines.length) (hy : s.cursor.y < s.used_rows)
    (hline : s.lines[s.cursor.y]? = some line) (hx : s.cursor.x ≤ line.len) :
    ∃ r hl, insert_text grow c s.cursor.x s.heap line = some r ∧
      highlight_line s.language (r.2.bytes r.1) (line.len + 1) = some hl ∧
      hl.length = line.len + 1 ∧
      insert grow c s = some (modified { s with
        heap := r.1, lines := s.lines.set s.cursor.y ⟨r.2, hl, line.len + 1⟩,
        cursor := ⟨s.cursor.x + 1, s.cursor.y⟩ }) := by
  have hok : line_ok s.heap line := hw.1 line (List.getElem?_mem hline)
  obtain ⟨r, h1, h2, h3, _, _⟩ := insert_text_spec grow c s.cursor.x s.heap line hok hx
  obtain ⟨hl, h4, h5⟩ := highlight_line_total s.language (r.2.bytes r.1) hw.2
  rw [slice.bytes_length h2, h3] at h4 h5
  refine ⟨r, hl, h1, h4, h5, ?_⟩
  unfold insert
  rw [if_neg (by omega)]
  simp only [Option.some_bind, hline, h1, h4]

/-- The invariants that `insert`, `del` and `new_line` keep when they replace
line `y` and the heap. -/
theorem wf_set_line (s : editor_state) (h1 : Heap) (y : Nat) (ln : line_t) (hw : wf s)
    (hkeep : ∀ t : slice, t.valid s.heap → t.valid h1) (hln : line_ok h1 ln) :
    ∀ a ∈ s.lines.set y ln, line_ok h1 a :=
  forall_mem_set y (fun a ha => ⟨hkeep _ (hw.1 a ha).1, (hw.1 a ha).2⟩) hln

/-- Every call of `insert` on a valid state returns a valid state, and keeps
the highlight of every line as long as its text when it was so before. -/
theorem insert_spec (grow : Nat → Nat → Nat) (c : Nat) (s : editor_state)
    (hw : wf s) (hc : cursor_valid s) :
    ∃ s1, insert grow c s = some s1 ∧ wf s1 ∧ cursor_valid s1 ∧
      (hl_len_ok s → hl_len_ok s1) ∧ s1.clean = false ∧ s1.quit_attempted = false := by
  -- the state in which the line at the cursor exists
  have key : ∀ s0 : editor_state, wf s0 → s0.used_rows = s0.lines.length →
      s0.cursor.y < s0.used_rows → (∀ ln ∈ s0.lines[s0.cursor.y]?, s0.cursor.x ≤ ln.len) →
      ∃ s1, insert grow c s0 = some s1 ∧ wf s1 ∧ cursor_valid s1 ∧
        (hl_len_ok s0 → hl_len_ok s1) ∧ s1.clean = false ∧ s1.quit_attempted = false := by
    intro s0 hw0 hu0 hy0 hx0
    have hlt : s0.cursor.y < s0.lines.length := by omega
    have hline : s0.lines[s0.cursor.y]? = some s0.lines[s0.cursor.y] :=
      List.getElem?_eq_getElem hlt
    obtain ⟨r, hl, h1, h2, h3, h4⟩ := insert_on_line grow c s0 _ hw0 hu0 hy0 hline
      (hx0 _ hline)
    have hok := hw0.1 _ (List.getElem?_mem hline)
    obtain ⟨r1, g1, g2, g3, g4, _⟩ := insert_text_spec grow c s0.cursor.x s0.heap _ hok
      (hx0 _ hline)
    rw [h1] at g1
    simp only [Option.some.injEq] at g1
    subst g1
    refine ⟨_, h4, ⟨?_, hw0.2⟩, ⟨?_, ?_, ?_, ?_⟩, ?_, rfl, rfl⟩
    · exact wf_set_line s0 r.1 _ _ hw0 g4 ⟨g2, g3.symm⟩
    · simp [hu0]
    · simp only [modified_used_rows, modified_cursor]; omega
    · intro ln hln
      simp only [modified_lines, modified_cursor, List.getElem?_set_self hlt, Option.mem_def,
        Option.some.injEq] at hln
      subst hln
      have := hx0 _ hline
      simp only [modified_cursor]; omega
    · intro h; simp only [modified_used_rows, modified_cursor] at h; omega
    · intro hh
      exact forall_mem_set _ hh (by simp only [h3, g3])
  by_cases hy : s.cursor.y = s.used_rows
  · have hnil : slice.nil.valid s.heap := by simp [slice.valid, slice.nil]
    obtain ⟨hl0, a1, a2, a3⟩ := add_line_spec s.used_rows slice.nil s hw.2 hc.1 (le_refl _) hnil
    have hx : s.cursor.x = 0 := hc.2.2.2 hy
    have hins : insert grow c s = insert grow c (modified { s with
        lines := s.lines.take s.used_rows ++ ⟨slice.nil, hl0, slice.nil.len⟩
          :: s.lines.drop s.used_rows,
        used_rows := s.used_rows + 1 }) := by
      conv_lhs => unfold insert
      rw [if_pos hy, a3, Option.some_bind]
      conv_rhs => unfold insert
      rw [if_neg (by simp [hy])]
      rfl
    rw [hins]
    have hwf1 : wf (modified { s with
        lines := s.lines.take s.used_rows ++ ⟨slice.nil, hl0, slice.nil.len⟩
          :: s.lines.drop s.used_rows,
        used_rows := s.used_rows + 1 }) :=
      ⟨forall_mem_insert_at _ hw.1 ⟨hnil, rfl⟩, hw.2⟩
    obtain ⟨s1, b1, b2, b3, b4, b5⟩ := key _ hwf1
      (by simp [hc.1])
      (by simp [hy])
      (by
        intro ln _
        simp only [modified_cursor, hx]
        exact Nat.zero_le _)
    refine ⟨s1, b1, b2, b3, fun hh => b4 ?_, b5⟩
    exact forall_mem_insert_at _ hh (by simpa [slice.nil] using a2)
  · exact key s hw hc.1 (by have := hc.2.1; omega) hc.2.2.1

/-! ## Deleting a byte -/

/-- The branch of `del` that takes a byte out of the line at the cursor. -/
theorem del_char_spec (grow : Nat → Nat → Nat) (s : editor_state) (line : line_t)
    (hw : wf s) (hok : line_ok s.heap line) (hx0 : 0 < s.cursor.x) (hx : s.cursor.x ≤ line.len) :
    ∃ (r : Heap × slice) (hl : List Nat), r.2.valid r.1 ∧ r.2.len = line.len - 1 ∧
      (∀ t : slice, t.valid s.heap → t.valid r.1) ∧
      r.2.bytes r.1 = (line.text.bytes s.heap).take (s.cursor.x - 1)
        ++ (line.text.bytes s.heap).drop s.cursor.x ∧
      highlight_line s.language (r.2.bytes r.1) (line.len - 1) = some hl ∧
      hl.length = line.len - 1 ∧
      del_char grow s line = some (modified { s with
        heap := r.1, lines := s.lines.set s.cursor.y ⟨r.2, hl, line.len - 1⟩,
        cursor := ⟨s.cursor.x - 1, s.cursor.y⟩ }) := by
  obtain ⟨hv, hlen⟩ := hok
  have h1 : line.text.head_to (s.cursor.x - 1)
      = some ⟨line.text.arr, line.text.off + 0, s.cursor.x - 1 - 0, line.text.cap - 0⟩ :=
    slice.sub_some _ (by omega) (by have := hv.1; omega)
  have h2 : line.text.tail_from (s.cursor.x - 1 + 1)
      = some ⟨line.text.arr, line.text.off + (s.cursor.x - 1 + 1),
          line.text.len - (s.cursor.x - 1 + 1), line.text.cap - (s.cursor.x - 1 + 1)⟩ :=
    slice.sub_some _ (by omega) hv.1
  have hhd : slice.valid s.heap
      ⟨line.text.arr, line.text.off + 0, s.cursor.x - 1 - 0, line.text.cap - 0⟩ := by
    have := hv.1; have := hv.2
    exact ⟨by simp only; omega, by simp only; omega⟩
  have htl := (slice.sub_valid hv h2).1
  have hr := go_append_valid grow
    (slice.bytes s.heap ⟨line.text.arr, line.text.off + (s.cursor.x - 1 + 1),
          line.text.len - (s.cursor.x - 1 + 1), line.text.cap - (s.cursor.x - 1 + 1)⟩) hhd
  have hrlen : (go_append grow s.heap
      ⟨line.text.arr, line.text.off + 0, s.cursor.x - 1 - 0, line.text.cap - 0⟩
      (slice.bytes s.heap ⟨line.text.arr, line.text.off + (s.cursor.x - 1 + 1),
          line.text.len - (s.cursor.x - 1 + 1), line.text.cap - (s.cursor.x - 1 + 1)⟩)).2.len
      = line.len - 1 := by
    rw [hr.2, slice.bytes_length htl]; simp only; omega
  obtain ⟨hl, h4, h5⟩ := highlight_line_total s.language (slice.bytes _ _) hw.2
  rw [slice.bytes_length hr.1, hrlen] at h4 h5
  refine ⟨_, hl, hr.1, hrlen, fun t ht => go_append_keeps_valid grow _ hhd ht, ?_, h4, h5, ?_⟩
  · rw [go_append_bytes grow _ hhd]
    simp only [slice.bytes, Nat.add_zero, Nat.sub_zero, List.take_take, List.drop_take,
      List.drop_drop]
    have e1 : min (s.cursor.x - 1) line.text.len = s.cursor.x - 1 := by omega
    have e2 : s.cursor.x - 1 + 1 = s.cursor.x := by omega
    rw [e1, e2]
  · unfold del_char
    simp only
    rw [if_neg (by omega)]
    simp only [h1, h2, Option.some_bind, h4]

theorem set_remove_at_set {α : Type} (L : List α) (k y : Nat) (a b : α) (hk : k < y)
    (hy : y ≤ L.length) :
    ((L.set k a).take y ++ (L.set k a).drop (y + 1)).set k b
      = (L.take y ++ L.drop (y + 1)).set k b := by
  rw [List.set_take, List.drop_set_of_lt a L (by omega : k < y + 1)]
  have h1 : k < ((L.take y).set k a).length := by simp; omega
  have h2 : k < (L.take y).length := by simp; omega
  rw [List.set_append_left _ _ h1, List.set_append_left _ _ h2, List.set_set]

/-- The texts of two lines joined by `del`. -/
theorem del_merge_spec (grow : Nat → Nat → Nat) (s : editor_state) (line above : line_t)
    (hw : wf s) (hu : s.used_rows = s.lines.length) (hy0 : 0 < s.cursor.y)
    (hy : s.cursor.y < s.used_rows) (hline : s.lines[s.cursor.y]? = some line)
    (habove : s.lines[s.cursor.y - 1]? = some above) :
    ∃ (r : Heap × slice) (hl : List Nat), r = go_append grow s.heap above.text (line.text.bytes s.heap) ∧
      r.2.valid r.1 ∧ r.2.len = above.len + line.len ∧
      (∀ t : slice, t.valid s.heap → t.valid r.1) ∧
      r.2.bytes r.1 = above.text.bytes s.heap ++ line.text.bytes s.heap ∧
      highlight_line s.language (r.2.bytes r.1) r.2.len = some hl ∧
      hl.length = r.2.len ∧
      del_merge grow s line = some (modified { s with
        heap := r.1,
        lines := (s.lines.take s.cursor.y ++ s.lines.drop (s.cursor.y + 1)).set
          (s.cursor.y - 1) ⟨r.2, hl, r.2.len⟩,
        used_rows := s.used_rows - 1,
        cursor := ⟨above.len, s.cursor.y - 1⟩ }) := by
  have hokl := hw.1 line (List.getElem?_mem hline)
  have hoka := hw.1 above (List.getElem?_mem habove)
  have hr := go_append_valid grow (line.text.bytes s.heap) hoka.1
  obtain ⟨hl, h4, h5⟩ := highlight_line_total s.language
    ((go_append grow s.heap above.text (line.text.bytes s.heap)).2.bytes
      (go_append grow s.heap above.text (line.text.bytes s.heap)).1) hw.2
  rw [slice.bytes_length hr.1] at h4 h5
  refine ⟨_, hl, rfl, hr.1, ?_, fun t ht => go_append_keeps_valid grow _ hoka.1 ht,
    go_append_bytes grow _ hoka.1, h4, h5, ?_⟩
  · rw [hr.2, slice.bytes_length hokl.1, hoka.2, hokl.2]
  · unfold del_merge
    simp only [habove, Option.some_bind]
    rw [if_neg (by omega)]
    simp only [h4, Option.some_bind]
    rw [set_remove_at_set _ _ _ _ _ (by omega) (by omega)]

theorem length_remove_at {α : Type} (L : List α) (k : Nat) (hk : k < L.length) :
    (L.take k ++ L.drop (k + 1)).length = L.length - 1 := by
  simp only [List.length_append, List.length_take, List.length_drop]
  omega

/-- Every call of `del` on a valid state returns a valid state, and keeps the
highlight of every line as long as its text when it was so before. -/
theorem del_spec (grow : Nat → Nat → Nat) (s : editor_state) (hw : wf s) (hc : cursor_valid s) :
    ∃ s1, del grow s = some s1 ∧ wf s1 ∧ cursor_valid s1 ∧ (hl_len_ok s → hl_len_ok s1) := by
  unfold del
  split
  · exact ⟨s, rfl, hw, hc, id⟩
  · rename_i hy
    split
    · exact ⟨s, rfl, hw, hc, id⟩
    · rename_i h00
      have hylt : s.cursor.y < s.lines.length := by have := hc.1; have := hc.2.1; omega
      have hline : s.lines[s.cursor.y]? = some s.lines[s.cursor.y] :=
        List.getElem?_eq_getElem hylt
      have hok := hw.1 _ (List.getElem?_mem hline)
      have hx := hc.2.2.1 _ hline
      simp only [hline, Option.some_bind]
      split
      · rename_i hx0
        obtain ⟨r, hl, r1, r2, r3, _, _, r6, r7⟩ := del_char_spec grow s _ hw hok hx0 hx
        refine ⟨_, r7, ⟨wf_set_line s r.1 _ _ hw r3 ⟨r1, r2.symm⟩, hw.2⟩, ⟨?_, ?_, ?_, ?_⟩, ?_⟩
        · simp [hc.1]
        · simp only [modified_used_rows, modified_cursor]; exact hc.2.1
        · intro ln hln
          simp only [modified_lines, modified_cursor, List.getElem?_set_self hylt, Option.mem_def,
            Option.some.injEq] at hln
          subst hln
          simp only [modified_cursor]; omega
        · intro h; simp only [modified_used_rows, modified_cursor] at h; omega
        · intro hh
          exact forall_mem_set _ hh (by simp only [r6, r2])
      · rename_i hx0
        have hy0 : 0 < s.cursor.y := by omega
        have habove : s.lines[s.cursor.y - 1]? = some s.lines[s.cursor.y - 1] :=
          List.getElem?_eq_getElem (by omega)
        obtain ⟨r, hl, _, r1, r2, r3, _, _, r6, r7⟩ := del_merge_spec grow s _ _ hw hc.1 hy0
          (by have := hc.1; omega) hline habove
        have hlen : (s.lines.take s.cursor.y ++ s.lines.drop (s.cursor.y + 1)).length
            = s.lines.length - 1 := length_remove_at _ _ hylt
        refine ⟨_, r7, ⟨?_, hw.2⟩, ⟨?_, ?_, ?_, ?_⟩, ?_⟩
        · refine forall_mem_set _ (forall_mem_remove_at _ ?_) ⟨r1, rfl⟩
          exact fun a ha => ⟨r3 _ (hw.1 a ha).1, (hw.1 a ha).2⟩
        · simp only [modified_used_rows, modified_lines, List.length_set, hlen, hc.1]
        · simp only [modified_used_rows, modified_cursor]; have := hc.2.1; omega
        · intro ln hln
          simp only [modified_lines, modified_cursor] at hln
          rw [List.getElem?_set_self (by rw [hlen]; omega)] at hln
          simp only [Option.mem_def, Option.some.injEq] at hln
          subst hln
          simp only [modified_cursor]; omega
        · intro h
          simp only [modified_used_rows, modified_cursor] at h
          have := hc.1; omega
        · intro hh
          exact forall_mem_set _ (forall_mem_remove_at _ hh) r6

/-! ## Splitting a line -/

theorem getElem?_insert_at_lt {α : Type} (L : List α) (k j : Nat) (v : α) (hj : j < k)
    (hk : k ≤ L.length) : (L.take k ++ v :: L.drop k)[j]? = L[j]? := by
  have h : j < (L.take k).length := by simp; omega
  rw [List.getElem?_append_left h, List.getElem?_take_of_lt hj]

/-- The branch of `new_line` for a cursor at column 0: an empty line goes in
above the line of the cursor. -/
theorem new_line_at_zero (s : editor_state) (hw : wf s) (hc : cursor_valid s)
    (hx : s.cursor.x = 0) :
    new_line s = some { modified { s with
        heap := s.heap ++ [[]],
        lines := s.lines.take s.cursor.y ++ ⟨⟨s.heap.length, 0, 0, 0⟩, [], 0⟩
          :: s.lines.drop s.cursor.y,
        used_rows := s.used_rows + 1 } with cursor := ⟨0, s.cursor.y + 1⟩ } := by
  have hv : slice.valid (s.heap ++ [[]]) ⟨s.heap.length, 0, 0, 0⟩ := by
    simp [slice.valid]
  obtain ⟨hl, h1, h2, h3⟩ := add_line_spec s.cursor.y ⟨s.heap.length, 0, 0, 0⟩
    { s with heap := s.heap ++ [[]] } hw.2 hc.1 hc.2.1 hv
  have h0 : hl = [] := List.length_eq_zero.mp h2
  subst h0
  unfold new_line
  rw [if_pos hx]
  simp only [alloc, List.length_nil]
  rw [h3]
  rfl

/-- The branch of `new_line` for a cursor inside or at the end of a line: the
text behind the cursor becomes a new line below, highlighted, and the line of
the cursor keeps the text before the cursor and its old highlight. -/
theorem new_line_split (s : editor_state) (cur : line_t) (hw : wf s) (hc : cursor_valid s)
    (hx : 0 < s.cursor.x) (hcur : s.lines[s.cursor.y]? = some cur) :
    ∃ hl, highlight_line s.language
        ((cur.text.bytes s.heap).drop s.cursor.x) (cur.len - s.cursor.x) = some hl ∧
      hl.length = cur.len - s.cursor.x ∧
      new_line s = some { modified { s with
        lines := (s.lines.take (s.cursor.y + 1)
          ++ ⟨⟨cur.text.arr, cur.text.off + s.cursor.x, cur.text.len - s.cursor.x,
                cur.text.cap - s.cursor.x⟩, hl, cur.text.len - s.cursor.x⟩
          :: s.lines.drop (s.cursor.y + 1)).set s.cursor.y
            ⟨⟨cur.text.arr, cur.text.off, s.cursor.x, cur.text.cap⟩, cur.highlight, s.cursor.x⟩,
        used_rows := s.used_rows + 1 } with cursor := ⟨0, s.cursor.y + 1⟩ } := by
  have hok := hw.1 cur (List.getElem?_mem hcur)
  have hxl := hc.2.2.1 cur hcur
  have hylt : s.cursor.y < s.lines.length := by
    by_contra hge
    rw [List.getElem?_eq_none (by omega)] at hcur
    exact absurd hcur (by simp)
  have h1 : cur.text.tail_from s.cursor.x
      = some ⟨cur.text.arr, cur.text.off + s.cursor.x, cur.text.len - s.cursor.x,
          cur.text.cap - s.cursor.x⟩ :=
    slice.sub_some _ (by have := hok.2; omega) hok.1.1
  have h2 : cur.text.head_to s.cursor.x
      = some ⟨cur.text.arr, cur.text.off + 0, s.cursor.x - 0, cur.text.cap - 0⟩ :=
    slice.sub_some _ (by omega) (by have := hok.1.1; have := hok.2; omega)
  have hback := (slice.sub_valid hok.1 h1).1
  obtain ⟨hl, g1, g2, g3⟩ := add_line_spec (s.cursor.y + 1) _ s hw.2 hc.1
    (by have := hc.1; omega) hback
  refine ⟨hl, ?_, by simpa [hok.2] using g2, ?_⟩
  · have : slice.bytes s.heap ⟨cur.text.arr, cur.text.off + s.cursor.x,
        cur.text.len - s.cursor.x, cur.text.cap - s.cursor.x⟩
        = (cur.text.bytes s.heap).drop s.cursor.x := by
      simp only [slice.bytes, List.drop_take, List.drop_drop]
    rw [← this, hok.2]; exact g1
  · unfold new_line
    rw [if_neg (by omega)]
    simp only [hcur, h1, h2, g3, Option.some_bind, modified_lines, modified_cursor,
      getElem?_insert_at_lt _ _ _ _ (Nat.lt_succ_self _) (Nat.succ_le_of_lt hylt)]
    rfl

/-- Every call of `new_line` on a valid state returns a valid state. -/
theorem new_line_spec (s : editor_state) (hw : wf s) (hc : cursor_valid s) :
    ∃ s1, new_line s = some s1 ∧ wf s1 ∧ cursor_valid s1 := by
  by_cases hx : s.cursor.x = 0
  · refine ⟨_, new_line_at_zero s hw hc hx, ⟨?_, hw.2⟩, ⟨?_, ?_, ?_, ?_⟩⟩
    · refine forall_mem_insert_at _ ?_ ⟨by simp [slice.valid], rfl⟩
      exact fun a ha => ⟨slice.valid_extend _ (hw.1 a ha).1, (hw.1 a ha).2⟩
    · have := hc.1; have := hc.2.1
      simp only [modified_used_rows, modified_lines, List.length_append, List.length_take,
        List.length_cons, List.length_drop]
      omega
    · simp only [modified_used_rows]; have := hc.2.1; omega
    · intro ln _; exact Nat.zero_le _
    · intro _; rfl
  · have hylt : s.cursor.y < s.lines.length := by
      have := hc.1; have := hc.2.1; have := hc.2.2.2
      omega
    have hcur : s.lines[s.cursor.y]? = some s.lines[s.cursor.y] := List.getElem?_eq_getElem hylt
    have hok := hw.1 _ (List.getElem?_mem hcur)
    have hxl := hc.2.2.1 _ hcur
    obtain ⟨hl, _, _, h3⟩ := new_line_split s _ hw hc (by omega) hcur
    refine ⟨_, h3, ⟨?_, hw.2⟩, ⟨?_, ?_, ?_, ?_⟩⟩
    · have := hok.1.1; have := hok.1.2; have := hok.2
      refine forall_mem_set _ (forall_mem_insert_at _ hw.1 ⟨⟨?_, ?_⟩, rfl⟩) ⟨⟨?_, ?_⟩, rfl⟩
      all_goals simp only [modified_heap]
      all_goals omega
    · have := hc.1
      simp only [modified_used_rows, modified_lines, List.length_set, List.length_append,
        List.length_take, List.length_cons, List.length_drop]
      omega
    · simp only [modified_used_rows]; have := hc.1; omega
    · intro ln _; exact Nat.zero_le _
    · intro _; rfl

/-! ## Splitting a line and joining the halves -/

theorem Heap.set_array_self (h : Heap) (k : Nat) : h.set k (h.array k) = h := by
  by_cases hk : k < h.length
  · apply List.ext_getElem?
    intro i
    by_cases hi : k = i
    · subst hi; simp [Heap.array, List.getElem?_set, hk]
    · simp [List.getElem?_set, hi]
  · exact List.set_eq_of_length_le (Nat.le_of_not_lt hk)

theorem take_append_drop_min {α : Type} (l : List α) (n : Nat) :
    l.take n ++ l.drop (min n l.length) = l := by
  by_cases h : n ≤ l.length
  · rw [Nat.min_eq_left h]; exact List.take_append_drop n l
  · rw [Nat.min_eq_right (by omega), List.take_of_length_le (by omega), List.drop_length]
    simp

theorem write_at_self (a : List Nat) (pos n : Nat) :
    write_at a pos ((a.drop pos).take n) = a := by
  have h := take_append_drop_min (a.drop pos) n
  have e : ∀ k, a.drop (pos + k) = (a.drop pos).drop k := fun k => by
    rw [List.drop_drop, Nat.add_comm]
  simp only [write_at, List.length_take, e]
  rw [List.append_assoc, h, List.take_append_drop]

/-- Appending to the front half of a split line the bytes of its back half,
which lie behind it in the same array, leaves the heap as it is. -/
theorem go_append_back_half (grow : Nat → Nat → Nat) (h : Heap) (t : slice) (x : Nat)
    (hx : x ≤ t.len) (hv : t.valid h) :
    go_append grow h ⟨t.arr, t.off, x, t.cap⟩
        (slice.bytes h ⟨t.arr, t.off + x, t.len - x, t.cap - x⟩) = (h, t) := by
  have hl : (slice.bytes h ⟨t.arr, t.off + x, t.len - x, t.cap - x⟩).length = t.len - x :=
    slice.bytes_length (s := ⟨t.arr, t.off + x, t.len - x, t.cap - x⟩)
      ⟨by have := hv.1; simp only; omega, by have := hv.1; have := hv.2; simp only; omega⟩
  unfold go_append
  simp only [hl]
  rw [if_pos (by have := hv.1; omega)]
  have e : x + (t.len - x) = t.len := by omega
  simp only [e, slice.bytes, Heap.write, write_at_self, Heap.set_array_self]

/-- An `append` to a slice without spare capacity leaves the bytes of every
other slice as they are. -/
theorem go_append_full (grow : Nat → Nat → Nat) (h : Heap) (s t : slice) (xs : List Nat)
    (hfull : s.cap ≤ s.len) (ht : t.valid h) :
    t.bytes (go_append grow h s xs).1 = t.bytes h := by
  unfold go_append
  split
  · rename_i hc
    have hx : xs = [] := List.length_eq_zero.mp (by omega)
    subst hx
    have hw : write_at (h.array s.arr) (s.off + s.len) [] = h.array s.arr := by
      simp [write_at]
    simp only [Heap.write, hw, Heap.set_array_self]
  · exact slice.bytes_extend _ ht

theorem del_at_column_zero (grow : Nat → Nat → Nat) (s : editor_state) (line : line_t)
    (hx : s.cursor.x = 0) (hy0 : 0 < s.cursor.y) (hy : s.cursor.y < s.used_rows)
    (hline : s.lines[s.cursor.y]? = some line) :
    del grow s = del_merge grow s line := by
  unfold del
  rw [if_neg (by omega), if_neg (by omega)]
  simp only [hline, Option.some_bind]
  rw [if_neg (by omega)]

theorem split_at_index {α : Type} (L : List α) (y : Nat) (hy : y < L.length) :
    ∃ A a D, L = A ++ a :: D ∧ A.length = y ∧ L[y]? = some a := by
  refine ⟨L.take y, L[y], L.drop (y + 1), ?_, by simp; omega, List.getElem?_eq_getElem hy⟩
  rw [← List.drop_eq_getElem_cons hy, List.take_append_drop]

theorem take_succ_append_cons {α : Type} (A D : List α) (v : α) :
    (A ++ v :: D).take (A.length + 1) = A ++ [v] := by
  rw [List.take_append]; simp

theorem drop_two_append_cons {α : Type} (A D : List α) (v : α) :
    (A ++ v :: D).drop (A.length + 1 + 1) = D.drop 1 := by
  rw [Nat.add_assoc, List.drop_append]; simp

theorem remove_at_after_insert {α : Type} (L : List α) (y : Nat) (v : α) (hy : y ≤ L.length) :
    (L.take y ++ v :: L.drop y).take (y + 1) ++ (L.take y ++ v :: L.drop y).drop (y + 1 + 1)
      = L.take y ++ v :: L.drop (y + 1) := by
  have hl : (L.take y).length = y := by simp; omega
  have e1 := take_succ_append_cons (L.take y) (L.drop y) v
  have e2 := drop_two_append_cons (L.take y) (L.drop y) v
  rw [hl] at e1 e2
  rw [e1, e2, List.drop_drop]
  simp [Nat.add_comm]

theorem set_middle {α : Type} (A : List α) (y : Nat) (v w : α) (D : List α)
    (hy : A.length = y) : (A ++ v :: D).set y w = A ++ w :: D := by
  rw [List.set_append_right _ _ (by omega), hy]
  simp

theorem remove_at_after_split {α : Type} (L : List α) (y : Nat) (f b : α) (hy : y < L.length) :
    ((L.take (y + 1) ++ b :: L.drop (y + 1)).set y f).take (y + 1)
      ++ ((L.take (y + 1) ++ b :: L.drop (y + 1)).set y f).drop (y + 1 + 1) = L.set y f := by
  obtain ⟨A, a, D, rfl, hA, _⟩ := split_at_index L y hy
  subst hA
  have e1 : (A ++ a :: D).take (A.length + 1) = A ++ [a] := by
    rw [List.take_append]; simp
  have e2 : (A ++ a :: D).drop (A.length + 1) = D := by
    rw [List.drop_append]; simp
  have e3 : (A ++ a :: D).set A.length f = A ++ f :: D := set_middle A _ a f D rfl
  have e4 : (A ++ [a] ++ b :: D).set A.length f = A ++ f :: b :: D := by
    rw [List.append_assoc]; exact set_middle A _ a f _ rfl
  have e5 : (A ++ f :: b :: D).take (A.length + 1) = A ++ [f] := by
    rw [List.take_append]; simp
  have e6 : (A ++ f :: b :: D).drop (A.length + 1 + 1) = D := by
    rw [Nat.add_assoc, List.drop_append]; simp
  rw [e1, e2, e3, e4, e5, e6]
  simp

theorem getElem?_split_upper {α : Type} (L : List α) (y : Nat) (f b : α) (hy : y < L.length) :
    ((L.take (y + 1) ++ b :: L.drop (y + 1)).set y f)[y + 1]? = some b := by
  have hl : (L.take (y + 1)).length = y + 1 := by simp; omega
  rw [List.getElem?_set_ne (by omega), List.getElem?_append_right (by omega), hl]
  simp

theorem getElem?_split_lower {α : Type} (L : List α) (y : Nat) (f b : α) (hy : y < L.length) :
    ((L.take (y + 1) ++ b :: L.drop (y + 1)).set y f)[y]? = some f := by
  rw [List.getElem?_set_self (by simp; omega)]

theorem getElem?_insert_succ {α : Type} (L : List α) (y : Nat) (v : α) (hy : y ≤ L.length) :
    (L.take y ++ v :: L.drop y)[y + 1]? = L[y]? := by
  have hl : (L.take y).length = y := by simp; omega
  rw [List.getElem?_append_right (by omega), hl]
  simp

theorem map_set_same {α β : Type} (g : α → β) (L : List α) (y : Nat) (v a : α)
    (ha : L[y]? = some a) (hv : g v = g a) : (L.set y v).map g = L.map g := by
  have hy : y < L.length := by
    by_contra hge
    rw [List.getElem?_eq_none (by omega)] at ha
    exact absurd ha (by simp)
  obtain ⟨A, a1, D, rfl, hA, ha1⟩ := split_at_index L y hy
  rw [ha] at ha1
  simp only [Option.some.injEq] at ha1
  subst ha1
  rw [set_middle A y a v D hA]
  simp [hv]

theorem map_middle {α β : Type} (g k : α → β) (L : List α) (y : Nat) (v a : α)
    (ha : L[y]? = some a) (hv : k v = g a) (hk : ∀ b ∈ L, k b = g b) :
    (L.take y ++ v :: L.drop (y + 1)).map k = L.map g := by
  have hy : y < L.length := by
    by_contra hge
    rw [List.getElem?_eq_none (by omega)] at ha
    exact absurd ha (by simp)
  obtain ⟨A, a1, D, rfl, hA, ha1⟩ := split_at_index L y hy
  rw [ha] at ha1
  simp only [Option.some.injEq] at ha1
  subst ha1
  subst hA
  have e1 : (A ++ a :: D).take A.length = A := by simp
  have e2 : (A ++ a :: D).drop (A.length + 1) = D := by rw [List.drop_append]; simp
  rw [e1, e2]
  simp only [List.map_append, List.map_cons, hv]
  rw [List.map_congr_left (fun b hb => hk b (List.mem_append_left _ hb)),
    List.map_congr_left (fun b hb => hk b (List.mem_append_right _ (List.mem_cons_of_mem _ hb)))]

/-- C7.  From every state whose cursor is on a line of the document, `new_line`
followed at once by `del` returns, and yields a document with the same
sequence of line texts as before the split and the cursor back at its old
place. -/
theorem C7_split_then_del_restores (grow : Nat → Nat → Nat) (s : editor_state)
    (hw : wf s) (hc : cursor_valid s) (hy : s.cursor.y < s.used_rows) :
    ∃ s1 s2, new_line s = some s1 ∧ del grow s1 = some s2 ∧
      s2.texts = s.texts ∧ s2.cursor = s.cursor ∧ s2.used_rows = s.used_rows := by
  have hylt : s.cursor.y < s.lines.length := by have := hc.1; omega
  have hcur : s.lines[s.cursor.y]? = some s.lines[s.cursor.y] := List.getElem?_eq_getElem hylt
  have hok := hw.1 _ (List.getElem?_mem hcur)
  have hxl := hc.2.2.1 _ hcur
  obtain ⟨s1, e1, hw1, hc1⟩ := new_line_spec s hw hc
  by_cases hx : s.cursor.x = 0
  · have e2 := new_line_at_zero s hw hc hx
    rw [e2] at e1
    simp only [Option.some.injEq] at e1
    subst e1
    have hline : (s.lines.take s.cursor.y ++ ⟨⟨s.heap.length, 0, 0, 0⟩, [], 0⟩
        :: s.lines.drop s.cursor.y)[s.cursor.y + 1]? = some s.lines[s.cursor.y] := by
      rw [getElem?_insert_succ _ _ _ (by omega), hcur]
    have habove : (s.lines.take s.cursor.y ++ ⟨⟨s.heap.length, 0, 0, 0⟩, [], 0⟩
        :: s.lines.drop s.cursor.y)[s.cursor.y + 1 - 1]? = some ⟨⟨s.heap.length, 0, 0, 0⟩, [], 0⟩ :=
      getElem?_insert_at _ _ _ (by omega)
    obtain ⟨r, hl, r0, r1, r2, r3, r4, r5, r6, r7⟩ := del_merge_spec grow _ _ _ hw1 hc1.1
      (Nat.succ_pos _) (by simp only [modified_used_rows]; omega) hline habove
    rw [← del_at_column_zero grow _ _ rfl (Nat.succ_pos _)
      (by simp only [modified_used_rows]; omega) hline] at r7
    refine ⟨_, _, e2, r7, ?_, ?_, ?_⟩
    · simp only [editor_state.texts, modified_lines, modified_heap]
      rw [remove_at_after_insert _ _ _ (by omega)]
      have hA : (s.lines.take s.cursor.y).length = s.cursor.y + 1 - 1 := by simp; omega
      rw [set_middle _ _ _ _ _ hA]
      refine map_middle _ _ _ _ _ _ hcur ?_ ?_
      · show r.2.bytes r.1 = s.lines[s.cursor.y].text.bytes s.heap
        rw [r4]
        simp only [modified_heap]
        rw [slice.bytes_extend _ hok.1]
        simp [slice.bytes]
      · intro b hb
        show b.text.bytes r.1 = b.text.bytes s.heap
        rw [r0]
        simp only [modified_heap]
        rw [go_append_full grow _ _ _ _ (le_refl _) (slice.valid_extend _ (hw.1 b hb).1),
          slice.bytes_extend _ (hw.1 b hb).1]
    · simp only [modified_cursor, hx]
      cases hcs : s.cursor
      rw [hcs] at hx
      simp only at hx
      simp [hx]
    · simp only [modified_used_rows]; omega
  · obtain ⟨hlb, _, _, e2⟩ := new_line_split s _ hw hc (by omega) hcur
    rw [e2] at e1
    simp only [Option.some.injEq] at e1
    subst e1
    have hline := getElem?_split_upper s.lines s.cursor.y
      (⟨⟨s.lines[s.cursor.y].text.arr, s.lines[s.cursor.y].text.off, s.cursor.x,
          s.lines[s.cursor.y].text.cap⟩, s.lines[s.cursor.y].highlight, s.cursor.x⟩ : line_t)
      ⟨⟨s.lines[s.cursor.y].text.arr, s.lines[s.cursor.y].text.off + s.cursor.x,
          s.lines[s.cursor.y].text.len - s.cursor.x,
          s.lines[s.cursor.y].text.cap - s.cursor.x⟩, hlb,
        s.lines[s.cursor.y].text.len - s.cursor.x⟩ hylt
    have habove := getElem?_split_lower s.lines s.cursor.y
      (⟨⟨s.lines[s.cursor.y].text.arr, s.lines[s.cursor.y].text.off, s.cursor.x,
          s.lines[s.cursor.y].text.cap⟩, s.lines[s.cursor.y].highlight, s.cursor.x⟩ : line_t)
      ⟨⟨s.lines[s.cursor.y].text.arr, s.lines[s.cursor.y].text.off + s.cursor.x,
          s.lines[s.cursor.y].text.len - s.cursor.x,
          s.lines[s.cursor.y].text.cap - s.cursor.x⟩, hlb,
        s.lines[s.cursor.y].text.len - s.cursor.x⟩ hylt
    obtain ⟨r, hl, r0, r1, r2, r3, r4, r5, r6, r7⟩ := del_merge_spec grow _ _ _ hw1 hc1.1
      (Nat.succ_pos _) (by simp only [modified_used_rows]; omega) hline habove
    rw [← del_at_column_zero grow _ _ rfl (Nat.succ_pos _)
      (by simp only [modified_used_rows]; omega) hline] at r7
    have hr : r = (s.heap, s.lines[s.cursor.y].text) := by
      rw [r0]
      exact go_append_back_half grow s.heap s.lines[s.cursor.y].text s.cursor.x
        (by have := hok.2; omega) hok.1
    clear r0
    subst hr
    refine ⟨_, _, e2, r7, ?_, ?_, ?_⟩
    · simp only [editor_state.texts, modified_lines]
      rw [remove_at_after_split _ _ _ _ hylt]
      simp only [Nat.add_sub_cancel, List.set_set]
      exact map_set_same (fun ln : line_t => ln.text.bytes s.heap) _ _ _ _ hcur rfl
    · simp only [modified_cursor, Nat.add_sub_cancel]
    · simp only [modified_used_rows]; omega

/-! ## Invariants of the commands -/

theorem handle_key_pg_up (w : world) (grow : Nat → Nat → Nat) (s : editor_state) :
    handle_key w grow KEY_PG_UP s = page_move KEY_UP s.dim.y s := by
  simp [handle_key, KEY_PG_UP, KEY_QUIT, KEY_SAVE, KEY_NEW_LINE, KEY_DEL, KEY_BACKSPACE,
    KEY_UP, KEY_DOWN, KEY_LEFT, KEY_RIGHT, KEY_PG_DOWN]

theorem handle_key_pg_down (w : world) (grow : Nat → Nat → Nat) (s : editor_state) :
    handle_key w grow KEY_PG_DOWN s = page_move KEY_DOWN s.dim.y s := by
  simp [handle_key, KEY_PG_UP, KEY_QUIT, KEY_SAVE, KEY_NEW_LINE, KEY_DEL, KEY_BACKSPACE,
    KEY_UP, KEY_DOWN, KEY_LEFT, KEY_RIGHT, KEY_PG_DOWN]

theorem handle_key_del (w : world) (grow : Nat → Nat → Nat) (s : editor_state) :
    handle_key w grow KEY_DEL s = (move_cursor KEY_RIGHT s).bind (del grow) := by
  simp [handle_key, KEY_PG_UP, KEY_QUIT, KEY_SAVE, KEY_NEW_LINE, KEY_DEL, KEY_BACKSPACE,
    KEY_UP, KEY_DOWN, KEY_LEFT, KEY_RIGHT, KEY_PG_DOWN]

/-- Every command returns on a valid state and leaves a valid state; the
commands `insert` and `del` also keep the highlight of every line as long as
its text. -/
theorem exec_spec (w : world) (grow : Nat → Nat → Nat) (cmd : command) (s : editor_state)
    (hw : wf s) (hc : cursor_valid s) :
    ∃ s1, exec w grow cmd s = some s1 ∧ wf s1 ∧ cursor_valid s1 ∧
      (cmd.is_edit = true → hl_len_ok s → hl_len_ok s1) := by
  cases cmd with
  | move key =>
    obtain ⟨c, h1, h2⟩ := move_cursor_spec key s hc
    exact ⟨{ s with cursor := c }, h1, hw, h2, fun h => absurd h (by simp [command.is_edit])⟩
  | page_up =>
    obtain ⟨c, h1, h2⟩ := page_move_spec KEY_UP s.dim.y s hc
    exact ⟨{ s with cursor := c }, by simp only [exec, handle_key_pg_up, h1], hw, h2,
      fun h => absurd h (by simp [command.is_edit])⟩
  | page_down =>
    obtain ⟨c, h1, h2⟩ := page_move_spec KEY_DOWN s.dim.y s hc
    exact ⟨{ s with cursor := c }, by simp only [exec, handle_key_pg_down, h1], hw, h2,
      fun h => absurd h (by simp [command.is_edit])⟩
  | insert c =>
    obtain ⟨s1, h1, h2, h3, h4, _⟩ := insert_spec grow c s hw hc
    exact ⟨s1, h1, h2, h3, fun _ => h4⟩
  | new_line =>
    obtain ⟨s1, h1, h2, h3⟩ := new_line_spec s hw hc
    exact ⟨s1, h1, h2, h3, fun h => absurd h (by simp [command.is_edit])⟩
  | del =>
    obtain ⟨s1, h1, h2, h3, h4⟩ := del_spec grow s hw hc
    exact ⟨s1, h1, h2, h3, fun _ => h4⟩
  | forward_del =>
    obtain ⟨c, h1, h2⟩ := move_cursor_spec KEY_RIGHT s hc
    obtain ⟨s1, h3, h4, h5, _⟩ := del_spec grow _ (wf_with_cursor s c hw) h2
    exact ⟨s1, by simp only [exec, handle_key_del, h1, Option.some_bind, h3], h4, h5,
      fun h => absurd h (by simp [command.is_edit])⟩

theorem run_edit_spec (w : world) (grow : Nat → Nat → Nat) : ∀ (cmds : List command)
    (s : editor_state), (∀ cmd ∈ cmds, cmd.is_edit = true) → wf s → cursor_valid s →
    hl_len_ok s →
    ∃ s1, run w grow cmds s = some s1 ∧ wf s1 ∧ cursor_valid s1 ∧ hl_len_ok s1
  | [], s, _, hw, hc, hh => ⟨s, rfl, hw, hc, hh⟩
  | cmd :: more, s, he, hw, hc, hh => by
    obtain ⟨s1, h1, h2, h3, h4⟩ := exec_spec w grow cmd s hw hc
    obtain ⟨s2, g1, g2⟩ := run_edit_spec w grow more s1
      (fun c hcm => he c (List.mem_cons_of_mem _ hcm)) h2 h3
      (h4 (he cmd (List.mem_cons_self _ _)) hh)
    exact ⟨s2, by simp only [run, h1, Option.some_bind, g1], g2⟩

/-- C1.  From a state in which every line has `len(highlight) = len(text) =
line.len` and the cursor is valid, every finite sequence of `insert(c)` and
`del()` runs to its end, and after each operation of the sequence (after every
prefix of it) every line of the document has `len(highlight) = len(text)`,
which is also the number of bytes of its text and the value of `line.len`. -/
theorem C1_highlight_length_invariant (w : world) (grow : Nat → Nat → Nat)
    (cmds : List command) (s : editor_state)
    (hedit : ∀ cmd ∈ cmds, cmd.is_edit = true)
    (hw : wf s) (hc : cursor_valid s) (hh : hl_len_ok s) (k : Nat) :
    ∃ sk, run w grow (cmds.take k) s = some sk ∧
      ∀ ln ∈ sk.lines, ln.highlight.length = ln.text.len ∧
        ln.highlight.length = (ln.bytes sk).length ∧ ln.text.len = ln.len := by
  obtain ⟨sk, h1, h2, _, h4⟩ := run_edit_spec w grow (cmds.take k) s
    (fun c hcm => hedit c (List.mem_of_mem_take hcm)) hw hc hh
  refine ⟨sk, h1, fun ln hln => ⟨h4 ln hln, ?_, (h2.1 ln hln).2.symm⟩⟩
  rw [h4 ln hln]
  exact (slice.bytes_length (h2.1 ln hln).1).symm

/-- C4.  The cursor validity predicate (together with the well-formedness of
the state) is preserved by every command: `move_cursor` with any key, Page-Up
and Page-Down, `insert`, `new_line`, `del` and the forward-Delete key; and
every one of these commands returns. -/
theorem C4_cursor_valid_preserved (w : world) (grow : Nat → Nat → Nat) (cmd : command)
    (s : editor_state) (hw : wf s) (hc : cursor_valid s) :
    ∃ s1, exec w grow cmd s = some s1 ∧ wf s1 ∧ cursor_valid s1 := by
  obtain ⟨s1, h1, h2, h3, _⟩ := exec_spec w grow cmd s hw hc
  exact ⟨s1, h1, h2, h3⟩

/-! ## The highlighter on a line with a comment -/

theorem c_keywords_eq : c_keywords = [[115, 119, 105, 116, 99, 104], [105, 102],
  [119, 104, 105, 108, 101], [102, 111, 114], [98, 114, 101, 97, 107],
  [99, 111, 110, 116, 105, 110, 117, 101], [114, 101, 116, 117, 114, 110], [101, 108, 115, 101],
  [115, 116, 114, 117, 99, 116], [117, 110, 105, 111, 110], [116, 121, 112, 101, 100, 101, 102],
  [115, 116, 97, 116, 105, 99], [101, 110, 117, 109], [99, 108, 97, 115, 115], [99, 97, 115, 101],
  [105, 110, 116, 124], [108, 111, 110, 103, 124], [100, 111, 117, 98, 108, 101, 124],
  [102, 108, 111, 97, 116, 124], [99, 104, 97, 114, 124],
  [117, 110, 115, 105, 103, 110, 101, 100, 124], [115, 105, 103, 110, 101, 100, 124],
  [118, 111, 105, 100, 124]] := by decide

theorem hl_loop_succ (lang : Syntax) (text : List Nat) (len cnt i : Nat) (st : hl_state) :
  hl_loop lang text len (cnt + 1) i st =
    match text[i]? with
    | none => none
    | some char =>
      if 0 < st.skip then hl_loop lang text len cnt (i + 1) { st with skip := st.skip - 1 }
      else if st.string_char = 0 && lang.In_line_comment.isPrefixOf (text.drop i) then
        fill_up i H_COMMENT (text.drop i).length 0 st.hl
      else if st.string_char ≠ 0 then
        match store st.hl i H_STR with
        | none => none
        | some hl1 =>
          if char = 92 ∧ i + 1 < len then
            match store hl1 (i + 1) H_STR with
            | none => none
            | some hl2 =>
              hl_loop lang text len cnt (i + 1) { st with hl := hl2, skip := st.skip + 1 }
          else if char = st.string_char then
            hl_loop lang text len cnt (i + 1) { st with hl := hl1, string_char := 0 }
          else hl_loop lang text len cnt (i + 1) { st with hl := hl1 }
      else if char = 39 ∨ char = 34 then
        match store st.hl i H_STR with
        | none => none
        | some hl1 => hl_loop lang text len cnt (i + 1) { st with hl := hl1, string_char := char }
      else
        match hl_word lang text len i char st with
        | none => none
        | some st1 => hl_loop lang text len cnt (i + 1) st1 := by
  rw [hl_loop]

theorem filepath_Ext_dot_c (name : String) : filepath_Ext (name ++ ".c") = ".c" := by
  have h : (name ++ ".c").toList.reverse = 'c' :: '.' :: name.toList.reverse := by
    simp [String.toList]
  rw [filepath_Ext, h]
  simp only [ext_scan]
  rfl

/-- The profile of every file whose name ends in `.c`. -/
theorem Setup_syntax_dot_c (prev : Syntax) (name : String) :
    Setup_syntax prev (name ++ ".c") = ⟨true, [47, 47], c_keywords⟩ := by
  rw [ Setup_syntax, filepath_Ext_dot_c]
  have h1 : ¬ (".c" = ".py") := by decide
  have h2 : bs "//" = [47, 47] := by decide
  simp only [h1, h2, if_false, if_true]

set_option maxRecDepth 4000 in
set_option maxHeartbeats 4000000 in
theorem hl_loop_upper_hex (rest : List Nat) : hl_loop ⟨true, [47, 47], c_keywords⟩
    (105 :: 110 :: 116 :: 32 :: 120 :: 32 :: 61 :: 32 :: 48 :: 120 :: 49 :: 65 :: 59 :: 32 ::
      47 :: 47 :: rest)
    (rest.length + 16) (rest.length + 16) 0 ⟨List.replicate (rest.length + 16) 0, true, 0, 0⟩
    = some (33 :: 33 :: 33 :: 0 :: 0 :: 0 :: 0 :: 0 :: 34 :: 0 :: 0 :: 0 :: 0 :: 0 ::
        List.replicate (rest.length + 2) 36) := by
  rw [c_keywords_eq]
  iterate 14
    rw [hl_loop_succ]
    simp [hl_word, keyword_loop, keyword_at, store, is_delimiter, delimiters, bs, is_digit,
      H_NONE, T_OFF, List.replicate_succ, fill_up, H_KEY_ALT, H_KEY, T_YELLOW, T_PURPLE, H_NUM,
      T_BLUE, hex_literal, hex_scan, is_hex_char, fill_down]
  rw [hl_loop_succ]
  simp [H_COMMENT, T_CYAN]
  rw [fill_up_eq _ _ _ _ _ (by simp; omega)]
  simp [List.replicate_succ]
  omega

set_option maxRecDepth 4000 in
set_option maxHeartbeats 4000000 in
theorem hl_loop_lower_hex (rest : List Nat) : hl_loop ⟨true, [47, 47], c_keywords⟩
    (105 :: 110 :: 116 :: 32 :: 120 :: 32 :: 61 :: 32 :: 48 :: 120 :: 49 :: 97 :: 59 :: 32 ::
      47 :: 47 :: rest)
    (rest.length + 16) (rest.length + 16) 0 ⟨List.replicate (rest.length + 16) 0, true, 0, 0⟩
    = some (33 :: 33 :: 33 :: 0 :: 0 :: 0 :: 0 :: 0 :: 34 :: 34 :: 34 :: 34 :: 0 :: 0 ::
        List.replicate (rest.length + 2) 36) := by
  rw [c_keywords_eq]
  iterate 14
    rw [hl_loop_succ]
    simp [hl_word, keyword_loop, keyword_at, store, is_delimiter, delimiters, bs, is_digit,
      H_NONE, T_OFF, List.replicate_succ, fill_up, H_KEY_ALT, H_KEY, T_YELLOW, T_PURPLE, H_NUM,
      T_BLUE, hex_literal, hex_scan, is_hex_char, fill_down]
  rw [hl_loop_succ]
  simp [H_COMMENT, T_CYAN]
  rw [fill_up_eq _ _ _ _ _ (by simp; omega)]
  simp [List.replicate_succ]
  omega

/-- C10, as the code has it.  With the profile of a file whose name ends in
`.c`, `highlight_line` on the line `int x = 0x1A; //` followed by any text
classifies the three bytes of `int` as alternate-class keyword, of the four
bytes of `0x1A` the leading `0` alone as numeric (the scan of a hex literal
accepts the digits `0-9` and `a-f`, so that `x1A` stays unclassified), and
every byte from the `//` marker to the end of the line as comment; with the
literal in lower case, `0x1a`, all four of its bytes are numeric. -/
theorem C10_c_line_with_comment (prev : Syntax) (name : String) (rest : List Nat) :
    highlight_line ( Setup_syntax prev (name ++ ".c")) (bs "int x = 0x1A; //" ++ rest)
        (16 + rest.length)
      = some ([H_KEY_ALT, H_KEY_ALT, H_KEY_ALT, H_NONE, H_NONE, H_NONE, H_NONE, H_NONE,
               H_NUM, H_NONE, H_NONE, H_NONE, H_NONE, H_NONE]
              ++ List.replicate (2 + rest.length) H_COMMENT) ∧
    highlight_line ( Setup_syntax prev (name ++ ".c")) (bs "int x = 0x1a; //" ++ rest)
        (16 + rest.length)
      = some ([H_KEY_ALT, H_KEY_ALT, H_KEY_ALT, H_NONE, H_NONE, H_NONE, H_NONE, H_NONE,
               H_NUM, H_NUM, H_NUM, H_NUM, H_NONE, H_NONE]
              ++ List.replicate (2 + rest.length) H_COMMENT) := by
  have e1 : bs "int x = 0x1A; //" = [105, 110, 116, 32, 120, 32, 61, 32, 48, 120, 49, 65,
      59, 32, 47, 47] := by decide
  have e2 : bs "int x = 0x1a; //" = [105, 110, 116, 32, 120, 32, 61, 32, 48, 120, 49, 97,
      59, 32, 47, 47] := by decide
  have e3 : 16 + rest.length = rest.length + 16 := by omega
  have e4 : 2 + rest.length = rest.length + 2 := by omega
  have h1 := hl_loop_upper_hex rest
  have h2 := hl_loop_lower_hex rest
  rw [Setup_syntax_dot_c, e1, e2, e3, e4]
  simp only [highlight_line, List.cons_append, List.nil_append, List.length_cons, H_NONE, T_OFF,
    H_KEY_ALT, T_YELLOW, H_NUM, T_BLUE, H_COMMENT, T_CYAN]
  exact ⟨h1, h2⟩

/-- C10, as the claim has it, fails: on `int x = 0x1A; // note` the bytes
`x1A` of the literal are not classified as numeric. -/
theorem C10_upper_hex_not_numeric :
    (highlight_line c_profile (bs "int x = 0x1A; // note") 21).map
        (fun hl => (hl.drop 8).take 4)
      = some [H_NUM, H_NONE, H_NONE, H_NONE] := by
  decide

/-! ## Scrolling -/

/-- One axis of `scroll`: the new offset for cursor coordinate `c`, old offset
`o` and window size `d`. -/
theorem scroll_axis (c o d : Nat) (hc : c < 18446744073709551616) (hd : 1 ≤ d)
    (ho : o + d < 18446744073709551616) :
    let o1 := if c < o then c else o
    let o2 := if uadd o1 d ≤ c then uadd (usub c d) 1 else o1
    (o2 ≤ c ∧ c < o2 + d) ∧ (o ≤ c → c < o + d → o2 = o) ∧
    (∀ o3, o3 ≤ c → c < o3 + d → (o2 - o) + (o - o2) ≤ (o3 - o) + (o - o3)) := by
  simp only [uadd, usub]
  split <;> split <;> refine ⟨?_, ?_, ?_⟩ <;> intros <;> omega

/-- C5.  For every cursor, prior offset and viewport size with `dim.x >= 1` and
`dim.y >= 1` and no unsigned overflow of `offset + dim`, after `scroll()` the
cursor is inside the window on both axes; on each axis the offset is unchanged
when the cursor was inside the window already, and otherwise no admissible
offset is closer to the old one than the new offset.  `scroll` changes nothing
but the offset. -/
theorem C5_scroll_keeps_cursor_in_window (s : editor_state)
    (hcx : s.cursor.x < 18446744073709551616) (hcy : s.cursor.y < 18446744073709551616)
    (hdx : 1 ≤ s.dim.x) (hdy : 1 ≤ s.dim.y)
    (hox : s.offset.x + s.dim.x < 18446744073709551616)
    (hoy : s.offset.y + s.dim.y < 18446744073709551616) :
    ((scroll s).offset.x ≤ s.cursor.x ∧ s.cursor.x < (scroll s).offset.x + s.dim.x ∧
      (scroll s).offset.y ≤ s.cursor.y ∧ s.cursor.y < (scroll s).offset.y + s.dim.y) ∧
    (s.offset.x ≤ s.cursor.x → s.cursor.x < s.offset.x + s.dim.x →
      (scroll s).offset.x = s.offset.x) ∧
    (s.offset.y ≤ s.cursor.y → s.cursor.y < s.offset.y + s.dim.y →
      (scroll s).offset.y = s.offset.y) ∧
    (∀ o, o ≤ s.cursor.x → s.cursor.x < o + s.dim.x →
      ((scroll s).offset.x - s.offset.x) + (s.offset.x - (scroll s).offset.x)
        ≤ (o - s.offset.x) + (s.offset.x - o)) ∧
    (∀ o, o ≤ s.cursor.y → s.cursor.y < o + s.dim.y →
      ((scroll s).offset.y - s.offset.y) + (s.offset.y - (scroll s).offset.y)
        ≤ (o - s.offset.y) + (s.offset.y - o)) ∧
    (scroll s).cursor = s.cursor ∧ (scroll s).dim = s.dim ∧ (scroll s).lines = s.lines := by
  have hx := scroll_axis s.cursor.x s.offset.x s.dim.x hcx hdx hox
  have hy := scroll_axis s.cursor.y s.offset.y s.dim.y hcy hdy
    (by omega)
  have ey : ∀ a b : Nat, uadd a b = uadd b a := fun a b => by simp only [uadd, Nat.add_comm]
  simp only [scroll]
  simp only [ey s.dim.y] at *
  exact ⟨⟨hx.1.1, hx.1.2, hy.1.1, hy.1.2⟩, hx.2.1, hy.2.1, hx.2.2, hy.2.2, trivial, trivial, trivial⟩

/-- C5, at a cursor below the window: the offset follows by just enough rows. -/
theorem C5_scroll_witness :
    (st_intx.cursor.x < 18446744073709551616 ∧ 1 ≤ st_intx.dim.x) ∧
    (scroll { st_intx with cursor := ⟨3, 40⟩ }).offset = ⟨0, 19⟩ ∧
    ((scroll { st_intx with cursor := ⟨3, 40⟩ }).offset.y ≤ 40 ∧
      40 < (scroll { st_intx with cursor := ⟨3, 40⟩ }).offset.y + 22) :=
  ⟨by decide, by decide,
    let h := C5_scroll_keeps_cursor_in_window { st_intx with cursor := ⟨3, 40⟩ }
      (by decide) (by decide) (by decide) (by decide) (by decide) (by decide)
    ⟨h.1.2.2.1, h.1.2.2.2⟩⟩

/-! ## The input decoder -/

theorem arrow_key_other (b : Nat) (h1 : ¬ 0x41 = b) (h2 : ¬ 0x42 = b) (h3 : ¬ 0x43 = b)
    (h4 : ¬ 0x44 = b) : arrow_key b = 0x1b := by
  have g1 : ¬ b = 0x41 := fun e => h1 e.symm
  have g2 : ¬ b = 0x42 := fun e => h2 e.symm
  have g3 : ¬ b = 0x43 := fun e => h3 e.symm
  have g4 : ¬ b = 0x44 := fun e => h4 e.symm
  simp only [arrow_key, g1, g2, g3, g4, if_false]

theorem read_input_other (input : List Nat)
    (hno : ∀ p ∈ recognised, ¬ p.1 <+: input) :
    ∃ after, read_input (0x1b :: input) = some (0x1b, after) := by
  simp only [recognised, List.mem_cons, List.mem_singleton, List.not_mem_nil, or_false,
    forall_eq_or_imp, forall_eq] at hno
  obtain ⟨h1, h2, h3, h4, h5, h6, h7⟩ := hno
  match input with
  | [] => exact ⟨_, rfl⟩
  | [a] => exact ⟨_, rfl⟩
  | a :: b :: [] =>
    simp only [read_input, if_true]
    split
    · rename_i ha
      subst ha
      simp only [List.cons_prefix_cons, List.nil_prefix, and_true, true_and] at h1 h2 h3 h4
      split
      · exact ⟨_, rfl⟩
      · exact ⟨_, by rw [arrow_key_other b h1 h2 h3 h4]⟩
    · exact ⟨_, rfl⟩
  | a :: b :: c :: more =>
    simp only [read_input, if_true]
    split
    · rename_i ha
      subst ha
      simp only [List.cons_prefix_cons, List.nil_prefix, and_true, true_and]
        at h1 h2 h3 h4 h5 h6 h7
      have hk := arrow_key_other b h1 h2 h3 h4
      split
      · have k1 : ¬ (c = 0x7E ∧ b = 0x33) := fun hh => h5 ⟨hh.2.symm, hh.1.symm⟩
        have k2 : ¬ (c = 0x7E ∧ b = 0x35) := fun hh => h6 ⟨hh.2.symm, hh.1.symm⟩
        have k3 : ¬ (c = 0x7E ∧ b = 0x36) := fun hh => h7 ⟨hh.2.symm, hh.1.symm⟩
        rw [if_neg k1, if_neg k2, if_neg k3, hk]
        exact ⟨_, rfl⟩
      · exact ⟨_, by rw [hk]⟩
    · exact ⟨_, rfl⟩

/-- C8.  The decoder `read_input` on a stream of bytes: a first byte other than
ESC is the event; `ESC [ A/B/C/D` give Up, Down, Right, Left; `ESC [ 3 ~`,
`ESC [ 5 ~`, `ESC [ 6 ~` give Delete, Page-Up, Page-Down; in every other case
the event is a bare Escape, among them `ESC [ 9 ~`, `ESC [ d x` with a digit
`d` and `x` other than `~`, and an ESC followed by fewer than two bytes.  The
seven special key codes are pairwise distinct and above 255. -/
theorem C8_read_input_decodes :
    (∀ c after, c ≠ 0x1b → read_input (c :: after) = some (c, after)) ∧
    (∀ after, read_input (0x1b :: 0x5B :: 0x41 :: after) = some (KEY_UP, after)) ∧
    (∀ after, read_input (0x1b :: 0x5B :: 0x42 :: after) = some (KEY_DOWN, after)) ∧
    (∀ after, read_input (0x1b :: 0x5B :: 0x43 :: after) = some (KEY_RIGHT, after)) ∧
    (∀ after, read_input (0x1b :: 0x5B :: 0x44 :: after) = some (KEY_LEFT, after)) ∧
    (∀ after, read_input (0x1b :: 0x5B :: 0x33 :: 0x7E :: after) = some (KEY_DEL, after)) ∧
    (∀ after, read_input (0x1b :: 0x5B :: 0x35 :: 0x7E :: after) = some (KEY_PG_UP, after)) ∧
    (∀ after, read_input (0x1b :: 0x5B :: 0x36 :: 0x7E :: after) = some (KEY_PG_DOWN, after)) ∧
    (∀ input, (∀ p ∈ recognised, ¬ p.1 <+: input) →
      ∃ after, read_input (0x1b :: input) = some (0x1b, after)) ∧
    (∀ after, ∃ after1, read_input (0x1b :: 0x5B :: 0x39 :: 0x7E :: after) = some (0x1b, after1)) ∧
    (∀ d x after, 0x30 ≤ d → d ≤ 0x39 → x ≠ 0x7E →
      ∃ after1, read_input (0x1b :: 0x5B :: d :: x :: after) = some (0x1b, after1)) ∧
    read_input [0x1b] = some (0x1b, []) ∧
    (∀ b, read_input [0x1b, b] = some (0x1b, [])) ∧
    [KEY_LEFT, KEY_RIGHT, KEY_UP, KEY_DOWN, KEY_PG_UP, KEY_PG_DOWN, KEY_DEL].Nodup ∧
    (∀ k ∈ [KEY_LEFT, KEY_RIGHT, KEY_UP, KEY_DOWN, KEY_PG_UP, KEY_PG_DOWN, KEY_DEL], 255 < k) := by
  refine ⟨?_, ?_, ?_, ?_, ?_, ?_, ?_, ?_, read_input_other, ?_, ?_, rfl, fun _ => rfl, by decide,
    by decide⟩
  · intro c after hc
    simp only [read_input, hc, if_false]
  · intro after; rfl
  · intro after; rfl
  · intro after; rfl
  · intro after; rfl
  · intro after; rfl
  · intro after; rfl
  · intro after; rfl
  · intro after; exact ⟨_, rfl⟩
  · intro d x after h1 h2 hx
    apply read_input_other
    intro p hp
    simp only [recognised, List.mem_cons, List.mem_singleton, List.not_mem_nil, or_false] at hp
    rcases hp with h | h | h | h | h | h | h <;> subst h <;>
      simp only [List.cons_prefix_cons, List.nil_prefix, and_true, true_and, not_and] <;>
      omega

/-! ## Where the code departs from its specification -/

/-- C2.  `new_line` at column 3 of the line `intx` of a C file: the new line
`x` is highlighted, but the truncated line `int` keeps the highlight of
`intx`, four classes for three bytes and none of them the keyword class that
the highlighter gives `int`. -/
theorem C2_new_line_keeps_stale_highlight :
    (wf st_intx ∧ cursor_valid st_intx ∧ hl_synced st_intx) ∧
    (new_line st_intx).map (fun s => (s.texts, s.lines.map (fun ln => ln.highlight)))
      = some ([bs "int", bs "x"], [[0, 0, 0, 0], [0]]) ∧
    highlight_line c_profile (bs "int") 3 = some [H_KEY_ALT, H_KEY_ALT, H_KEY_ALT] := by
  decide

/-- C3.  Loading a file whose last line has no newline, `ab\ncd`, and
serialising it yields `ab\n`: the line `cd` is lost. -/
theorem C3_last_line_without_newline_is_lost :
    (open_file "notes.txt" (some (bs "ab\ncd")) st_start).map
        (fun s => (s.texts, (stringify s).1))
      = some ([bs "ab"], bs "ab\n") := by
  decide

/-- C6.  In the state `st_shared`, which the editor reaches from the file
`abc` by six keys and in which every highlight agrees with the highlighter,
`insert` of `Y` at the end of the first line followed by `del` leaves the
second line with the text `Y` in place of `c`. -/
theorem C6_insert_del_overwrites_next_line :
    (open_file "main.c" (some (bs "abc\n")) st_start).bind
        (run world_ok grow_twice keys_shared) = some st_shared ∧
    (wf st_shared ∧ cursor_valid st_shared ∧ hl_synced st_shared) ∧
    st_shared.texts = [bs "aX", bs "c"] ∧
    ((insert grow_twice 89 st_shared).bind (del grow_twice)).map
        (fun s => (s.texts, s.cursor)) = some ([bs "aX", bs "Y"], ⟨2, 0⟩) := by
  decide

/-- C9.  The decoder takes three bytes of `ESC [ 9 ~`, not four: the `~` stays
in the stream, and the next call of `read_input` returns it as an ordinary
character. -/
theorem C9_tilde_after_digit_nine_is_left (after : List Nat) :
    read_input (0x1b :: 0x5B :: 0x39 :: 0x7E :: after) = some (0x1b, 0x7E :: after) ∧
    read_input (0x7E :: after) = some (0x7E, after) ∧
    (handle_key_event world_ok grow_twice [0x1b, 0x5B, 0x39, 0x7E] st_intx).bind
        (fun r => (handle_key_event world_ok grow_twice r.2 r.1).map
          (fun r1 => r1.1.texts)) = some [bs "int~x"] := by
  refine ⟨rfl, rfl, ?_⟩
  decide

/-! ## The theorems at work on a concrete state -/

/-- C1 on the line `intx`: an `a` is typed behind `int` and deleted again. -/
theorem C1_highlight_length_witness :
    (wf st_intx ∧ cursor_valid st_intx ∧ hl_len_ok st_intx) ∧
    ∃ sk, run world_ok grow_twice ([command.insert 97, command.del].take 2) st_intx = some sk ∧
      ∀ ln ∈ sk.lines, ln.highlight.length = ln.text.len ∧
        ln.highlight.length = (ln.bytes sk).length ∧ ln.text.len = ln.len :=
  ⟨by decide,
    C1_highlight_length_invariant world_ok grow_twice [command.insert 97, command.del] st_intx
      (by decide) (by decide) (by decide) (by decide) 2⟩

/-- C4 on the line `intx`: Enter behind `int`. -/
theorem C4_cursor_valid_witness :
    (wf st_intx ∧ cursor_valid st_intx) ∧
    ∃ s1, exec world_ok grow_twice command.new_line st_intx = some s1 ∧ wf s1 ∧ cursor_valid s1 :=
  ⟨by decide,
    C4_cursor_valid_preserved world_ok grow_twice command.new_line st_intx (by decide)
      (by decide)⟩

/-- C7 on the line `intx`: Enter behind `int`, then Backspace. -/
theorem C7_split_then_del_witness :
    (wf st_intx ∧ cursor_valid st_intx ∧ st_intx.cursor.y < st_intx.used_rows) ∧
    ∃ s1 s2, new_line st_intx = some s1 ∧ del grow_twice s1 = some s2 ∧
      s2.texts = st_intx.texts ∧ s2.cursor = st_intx.cursor ∧
      s2.used_rows = st_intx.used_rows :=
  ⟨by decide,
    C7_split_then_del_restores grow_twice st_intx (by decide) (by decide) (by decide)⟩

/-! ## Serialising the document -/

theorem stringify_fold (h : Heap) : ∀ (L : List line_t) (acc : List Nat × Nat),
    L.foldl (fun acc line => (acc.1 ++ line.text.bytes h ++ [10], acc.2 + (line.len + 1))) acc
      = (acc.1 ++ (L.map (fun line => line.text.bytes h ++ [10])).flatten,
         acc.2 + (L.map (fun line => line.len + 1)).sum)
  | [], acc => by simp
  | line :: more, acc => by
    rw [List.foldl_cons, stringify_fold h more]
    simp [Nat.add_assoc]

theorem sum_lengths (h : Heap) : ∀ (L : List line_t), (∀ ln ∈ L, line_ok h ln) →
    (L.map (fun line => line.len + 1)).sum
      = ((L.map (fun line => line.text.bytes h ++ [10])).flatten).length
  | [], _ => by simp
  | line :: more, hok => by
    have h1 := hok line (List.mem_cons_self _ _)
    have h2 := sum_lengths h more (fun ln hln => hok ln (List.mem_cons_of_mem _ hln))
    simp only [List.map_cons, List.sum_cons, List.flatten_cons, List.length_append, h2,
      slice.bytes_length h1.1, h1.2, List.length_singleton]

/-- C12.  For every document `stringify` produces the concatenation, in line
order, of each line's text followed by one newline byte, the empty sequence
for the empty document; and in every well-formed state the length it reports
is the number of bytes of that buffer. -/
theorem C12_stringify_concatenates (s : editor_state) :
    (stringify s).1 = (s.texts.map (fun t => t ++ [10])).flatten ∧
    (s.lines = [] → (stringify s).1 = []) ∧
    (wf s → (stringify s).2 = (stringify s).1.length) := by
  have h := stringify_fold s.heap s.lines ([], 0)
  simp only [List.nil_append, Nat.zero_add] at h
  refine ⟨?_, ?_, ?_⟩
  · simp only [stringify, h, editor_state.texts, List.map_map]
    rfl
  · intro he
    simp [stringify, he]
  · intro hw
    simp only [stringify, h]
    exact sum_lengths s.heap s.lines hw.1

/-! ## Deleting where there is nothing to delete -/

/-- C14.  With the cursor at the buffer start (`x = 0` and `y = 0`) or parked
past the last line (`y = used_rows`), `del` returns and leaves the state as it
is: lines, `used_rows`, cursor, clean flag and quit latch. -/
theorem C14_del_is_noop_at_the_ends (grow : Nat → Nat → Nat) (s : editor_state)
    (h : (s.cursor.x = 0 ∧ s.cursor.y = 0) ∨ s.cursor.y = s.used_rows) :
    del grow s = some s := by
  unfold del
  split
  · rfl
  · rename_i hy
    rcases h with h | h
    · rw [if_pos h]
    · exact absurd h hy

/-- C14 on the line `ab` with the cursor at the buffer start. -/
theorem C14_del_noop_witness :
    ((st_ab_start.cursor.x = 0 ∧ st_ab_start.cursor.y = 0) ∨
      st_ab_start.cursor.y = st_ab_start.used_rows) ∧
    del grow_twice st_ab_start = some st_ab_start :=
  ⟨by decide, C14_del_is_noop_at_the_ends grow_twice st_ab_start (by decide)⟩

/-- C13.  With the cursor at the end of the last line, `ab`, the
forward-Delete key removes the byte before the cursor: the line becomes `a`
and the cursor moves to column 1. -/
theorem C13_forward_delete_at_end_acts_as_backspace :
    (wf st_ab_end ∧ cursor_valid st_ab_end ∧ st_ab_end.texts = [bs "ab"]) ∧
    (handle_key world_ok grow_twice KEY_DEL st_ab_end).map
        (fun s => (s.texts, s.cursor)) = some ([bs "a"], ⟨1, 0⟩) := by
  decide

/-- C15.  When the file cannot be opened, `save` returns with the state as it
was: no message reports the failure.  For a buffer without a name the message
is the empty one that the prompt left. -/
theorem C15_save_is_silent_when_open_fails :
    save world_no_open st_ab_end = some st_ab_end ∧
    (save world_no_open { st_ab_end with file_name := "", msg := "CTRL-S to save" }).map
        (fun s => (s.msg, s.file_name, s.clean, s.texts)) = some ("", "out.c", true, [bs "ab"]) ∧
    (save ⟨"out.c", false, some "disk full"⟩ st_ab_end).map (fun s => s.msg)
      = some "Unable to save file. Error: disk full" := by
  decide

/-- C17, as the claim has it, fails: `del` with the cursor at the buffer
start of a document that was not changed leaves the clean flag set. -/
theorem C17_del_at_start_keeps_clean :
    (wf st_ab_start ∧ cursor_valid st_ab_start ∧ st_ab_start.clean = true) ∧
    (del grow_twice st_ab_start).map (fun s => s.clean) = some true := by
  decide

/-- C18.  With the C profile, on the line `"a"int` the bytes of `int` are
classified as keyword: the run starts at index 3, behind the closing quote,
which is no delimiter. -/
theorem C18_keyword_behind_closing_quote :
    highlight_line c_profile (bs "\"a\"int") 6
      = some [H_STR, H_STR, H_STR, H_KEY_ALT, H_KEY_ALT, H_KEY_ALT] ∧
    (bs "\"a\"int")[2]? = some 34 ∧ is_delimiter 34 = false := by
  decide

/-- C20.  After the line `ab` was split behind `a` and the cursor brought back
to the end of the first half, `insert` of `X` changes the second line from `b`
to `X`. -/
theorem C20_insert_overwrites_other_half :
    (open_file "main.c" (some (bs "ab\n")) st_start).bind
        (run world_ok grow_twice keys_split) = some st_split ∧
    (wf st_split ∧ cursor_valid st_split ∧ st_split.texts = [bs "a", bs "b"]) ∧
    (insert grow_twice 88 st_split).map (fun s => s.texts) = some [bs "aX", bs "X"] := by
  decide

/-! ## The clean flag -/

/-- Where `del` changes the document it marks it as modified. -/
theorem del_clears_clean (grow : Nat → Nat → Nat) (s : editor_state) (hw : wf s)
    (hc : cursor_valid s) (hy : s.cursor.y ≠ s.used_rows)
    (h00 : ¬ (s.cursor.x = 0 ∧ s.cursor.y = 0)) :
    ∃ s1, del grow s = some s1 ∧ s1.clean = false ∧ s1.quit_attempted = false := by
  have hylt : s.cursor.y < s.lines.length := by have := hc.1; have := hc.2.1; omega
  have hline : s.lines[s.cursor.y]? = some s.lines[s.cursor.y] := List.getElem?_eq_getElem hylt
  have hok := hw.1 _ (List.getElem?_mem hline)
  have hx := hc.2.2.1 _ hline
  unfold del
  rw [if_neg hy, if_neg h00]
  simp only [hline, Option.some_bind]
  split
  · rename_i hx0
    obtain ⟨r, hl, _, _, _, _, _, _, r7⟩ := del_char_spec grow s _ hw hok hx0 hx
    exact ⟨_, r7, rfl, rfl⟩
  · have hy0 : 0 < s.cursor.y := by omega
    have habove : s.lines[s.cursor.y - 1]? = some s.lines[s.cursor.y - 1] :=
      List.getElem?_eq_getElem (by omega)
    obtain ⟨r, hl, _, _, _, _, _, _, _, r7⟩ := del_merge_spec grow s _ _ hw hc.1 hy0
      (by have := hc.1; omega) hline habove
    exact ⟨_, r7, rfl, rfl⟩

/-- C17, as the code has it.  In every valid state, `add_line` at an index up
to `used_rows`, `insert`, `new_line`, and `del` with the cursor neither at the
buffer start nor past the last line return with the clean flag and the
quit-confirmation latch false.  (At those two cursor positions `del` returns
before it changes anything, the two flags included.) -/
theorem C17_mutations_clear_clean (grow : Nat → Nat → Nat) (s : editor_state)
    (hw : wf s) (hc : cursor_valid s) :
    (∀ loc line, loc ≤ s.used_rows → slice.valid s.heap line →
      ∃ s1, add_line loc line s = some s1 ∧ s1.clean = false ∧ s1.quit_attempted = false) ∧
    (∀ c, ∃ s1, insert grow c s = some s1 ∧ s1.clean = false ∧ s1.quit_attempted = false) ∧
    (∃ s1, new_line s = some s1 ∧ s1.clean = false ∧ s1.quit_attempted = false) ∧
    (s.cursor.y ≠ s.used_rows → ¬ (s.cursor.x = 0 ∧ s.cursor.y = 0) →
      ∃ s1, del grow s = some s1 ∧ s1.clean = false ∧ s1.quit_attempted = false) ∧
    ((s.cursor.x = 0 ∧ s.cursor.y = 0) ∨ s.cursor.y = s.used_rows → del grow s = some s) := by
  refine ⟨?_, ?_, ?_, del_clears_clean grow s hw hc, ?_⟩
  · intro loc line hloc hv
    obtain ⟨hl, _, _, h3⟩ := add_line_spec loc line s hw.2 hc.1 hloc hv
    exact ⟨_, h3, rfl, rfl⟩
  · intro c
    obtain ⟨s1, h1, _, _, _, h5, h6⟩ := insert_spec grow c s hw hc
    exact ⟨s1, h1, h5, h6⟩
  · by_cases hx : s.cursor.x = 0
    · exact ⟨_, new_line_at_zero s hw hc hx, rfl, rfl⟩
    · have hylt : s.cursor.y < s.lines.length := by
        have := hc.1; have := hc.2.1; have := hc.2.2.2
        omega
      obtain ⟨hl, _, _, h3⟩ := new_line_split s _ hw hc (by omega)
        (List.getElem?_eq_getElem hylt)
      exact ⟨_, h3, rfl, rfl⟩
  · intro h
    unfold del
    by_cases hy : s.cursor.y = s.used_rows
    · rw [if_pos hy]
    · rw [if_neg hy, if_pos (h.resolve_right hy)]

/-- C17 on the line `ab` with the cursor at its end. -/
theorem C17_mutations_witness :
    (wf st_ab_end ∧ cursor_valid st_ab_end) ∧
    ∃ s1, del grow_twice st_ab_end = some s1 ∧ s1.clean = false ∧ s1.quit_attempted = false :=
  ⟨by decide,
    (C17_mutations_clear_clean grow_twice st_ab_end (by decide) (by decide)).2.2.2.1
      (by decide) (by decide)⟩

/-! ## No command goes out of range -/

theorem Setup_syntax_keywords (prev : Syntax) (file_name : String)
    (h : ∀ kw ∈ prev.Keywords, kw ≠ []) :
    ∀ kw ∈ ( Setup_syntax prev file_name).Keywords, kw ≠ [] := by
  have h1 : ∀ kw ∈ py_keywords, kw ≠ [] := by decide
  have h2 : ∀ kw ∈ c_keywords, kw ≠ [] := by decide
  have h3 : ∀ kw ∈ go_keywords, kw ≠ [] := by decide
  unfold Setup_syntax
  simp only
  split
  · exact h1
  · split
    · exact h2
    · split
      · exact h3
      · exact h

theorem registry_profile_keywords (lang : Syntax) (h : registry_profile lang) :
    ∀ kw ∈ lang.Keywords, kw ≠ [] := by
  induction h with
  | zero => intro kw hkw; simp [Syntax.zero] at hkw
  | setup prev file_name _ ih => exact Setup_syntax_keywords prev file_name ih

/-- C19.  From every well-formed state with a valid cursor every command - a
cursor move, Page-Up, Page-Down, `insert`, `new_line`, `del`, forward delete -
returns a state (no index or slice bound is out of range), and `scroll`, which
has no index or slice expression, returns a state with the same document and
cursor; and `highlight_line` returns one class for each byte of every line
text under each of the registry's profiles. -/
theorem C19_no_command_panics (w : world) (grow : Nat → Nat → Nat) (s : editor_state)
    (hw : wf s) (hc : cursor_valid s) :
    (∀ cmd, ∃ s1, exec w grow cmd s = some s1 ∧ wf s1 ∧ cursor_valid s1) ∧
    (wf (scroll s) ∧ cursor_valid (scroll s)) ∧
    (∀ lang, registry_profile lang → ∀ text : List Nat,
      ∃ hl, highlight_line lang text text.length = some hl ∧ hl.length = text.length) := by
  refine ⟨fun cmd => ?_, ⟨hw, hc⟩, fun lang hl text => ?_⟩
  · obtain ⟨s1, h1, h2, h3, _⟩ := exec_spec w grow cmd s hw hc
    exact ⟨s1, h1, h2, h3⟩
  · exact highlight_line_total lang text (registry_profile_keywords lang hl)

/-- C19 on the line `ab` with the cursor at its end. -/
theorem C19_no_panic_witness :
    (wf st_ab_end ∧ cursor_valid st_ab_end) ∧
    ∃ s1, exec world_ok grow_twice command.forward_del st_ab_end = some s1 ∧ wf s1 ∧
      cursor_valid s1 :=
  ⟨by decide,
    (C19_no_command_panics world_ok grow_twice st_ab_end (by decide) (by decide)).1
      command.forward_del⟩

/-! ## Page-Up and Page-Down -/

theorem move_cursor_down (s : editor_state) (hc : cursor_valid s) :
    ∃ c : vector, move_cursor KEY_DOWN s = some { s with cursor := c } ∧
      cursor_valid { s with cursor := c } ∧
      c.y = if s.cursor.y + 1 < s.used_rows then s.cursor.y + 1 else s.cursor.y := by
  have hstep : move_step KEY_DOWN s
      = some { s with cursor := ⟨s.cursor.x,
          if s.cursor.y + 1 < s.used_rows then s.cursor.y + 1 else s.cursor.y⟩ } := by
    have hne : ¬ (KEY_DOWN = KEY_UP) := by decide
    unfold move_step
    rw [if_neg hne, if_pos rfl]
    by_cases h : s.cursor.y + 1 < s.used_rows
    · simp only [h, if_true]
    · simp only [h, if_false]
  obtain ⟨c, h1, h2, h3⟩ := clamp_x_spec { s with cursor := ⟨s.cursor.x,
      if s.cursor.y + 1 < s.used_rows then s.cursor.y + 1 else s.cursor.y⟩ } hc.1
    (by have := hc.2.1; simp only; split <;> omega)
  exact ⟨c, by simp only [move_cursor, hstep, Option.some_bind, h1], h3, h2⟩

theorem move_cursor_up (s : editor_state) (hc : cursor_valid s) :
    ∃ c : vector, move_cursor KEY_UP s = some { s with cursor := c } ∧
      cursor_valid { s with cursor := c } ∧ c.y = s.cursor.y - 1 := by
  have hstep : move_step KEY_UP s = some { s with cursor := ⟨s.cursor.x, s.cursor.y - 1⟩ } := by
    unfold move_step
    rw [if_pos rfl]
    by_cases h : 0 < s.cursor.y
    · simp only [h, if_true]
    · have e : s.cursor.y - 1 = s.cursor.y := by omega
      simp only [h, if_false, e]
  obtain ⟨c, h1, h2, h3⟩ := clamp_x_spec { s with cursor := ⟨s.cursor.x, s.cursor.y - 1⟩ } hc.1
    (by have := hc.2.1; simp only; omega)
  exact ⟨c, by simp only [move_cursor, hstep, Option.some_bind, h1], h3, h2⟩

theorem page_move_down : ∀ (n : Nat) (s : editor_state), cursor_valid s →
    s.cursor.y < s.used_rows →
    ∃ c : vector, page_move KEY_DOWN n s = some { s with cursor := c } ∧
      cursor_valid { s with cursor := c } ∧ c.y = min (s.cursor.y + n) (s.used_rows - 1)
  | 0, s, hc, hy => ⟨s.cursor, rfl, hc, by simp only [Nat.add_zero]; omega⟩
  | n + 1, s, hc, hy => by
    obtain ⟨c1, h1, h2, h3⟩ := move_cursor_down s hc
    obtain ⟨c2, g1, g2, g3⟩ := page_move_down n { s with cursor := c1 } h2
      (by simp only; rw [h3]; split <;> omega)
    refine ⟨c2, by simp only [page_move, h1, Option.some_bind, g1], g2, ?_⟩
    rw [g3]
    simp only
    rw [h3]
    split <;> omega

theorem page_move_up : ∀ (n : Nat) (s : editor_state), cursor_valid s →
    ∃ c : vector, page_move KEY_UP n s = some { s with cursor := c } ∧
      cursor_valid { s with cursor := c } ∧ c.y = s.cursor.y - min s.cursor.y n
  | 0, s, hc => ⟨s.cursor, rfl, hc, by simp⟩
  | n + 1, s, hc => by
    obtain ⟨c1, h1, h2, h3⟩ := move_cursor_up s hc
    obtain ⟨c2, g1, g2, g3⟩ := page_move_up n { s with cursor := c1 } h2
    refine ⟨c2, by simp only [page_move, h1, Option.some_bind, g1], g2, ?_⟩
    rw [g3]
    simp only
    rw [h3]
    omega

/-- C16.  For every valid state with the cursor on a line of the document and
every `dim.y`, Page-Down returns with `cursor.y = min(cursor.y + dim.y,
used_rows - 1)` and Page-Up with `cursor.y = cursor.y - min(cursor.y, dim.y)`;
both change the cursor only, and leave `cursor.x` at most the length of the
line the cursor is on then. -/
theorem C16_page_jump_is_clamped (w : world) (grow : Nat → Nat → Nat) (s : editor_state)
    (hc : cursor_valid s) (hy : s.cursor.y < s.used_rows) :
    (∃ c : vector, handle_key w grow KEY_PG_DOWN s = some { s with cursor := c } ∧
      c.y = min (s.cursor.y + s.dim.y) (s.used_rows - 1) ∧
      ∃ ln, s.lines[c.y]? = some ln ∧ c.x ≤ ln.len) ∧
    (∃ c : vector, handle_key w grow KEY_PG_UP s = some { s with cursor := c } ∧
      c.y = s.cursor.y - min s.cursor.y s.dim.y ∧
      ∃ ln, s.lines[c.y]? = some ln ∧ c.x ≤ ln.len) := by
  obtain ⟨c1, h1, h2, h3⟩ := page_move_down s.dim.y s hc hy
  obtain ⟨c2, g1, g2, g3⟩ := page_move_up s.dim.y s hc
  have hlen := hc.1
  refine ⟨⟨c1, by rw [handle_key_pg_down, h1], h3, ?_⟩, ⟨c2, by rw [handle_key_pg_up, g1], g3, ?_⟩⟩
  · have hlt : c1.y < s.lines.length := by rw [h3]; omega
    exact ⟨_, List.getElem?_eq_getElem hlt,
      h2.2.2.1 _ (by simp only [Option.mem_def]; exact List.getElem?_eq_getElem hlt)⟩
  · have hlt : c2.y < s.lines.length := by rw [g3]; omega
    exact ⟨_, List.getElem?_eq_getElem hlt,
      g2.2.2.1 _ (by simp only [Option.mem_def]; exact List.getElem?_eq_getElem hlt)⟩

/-- C16 on the line `ab`. -/
theorem C16_page_jump_witness :
    (cursor_valid st_ab_end ∧ st_ab_end.cursor.y < st_ab_end.used_rows) ∧
    ∃ c : vector, handle_key world_ok grow_twice KEY_PG_DOWN st_ab_end
        = some { st_ab_end with cursor := c } ∧
      c.y = min (st_ab_end.cursor.y + st_ab_end.dim.y) (st_ab_end.used_rows - 1) ∧
      ∃ ln, st_ab_end.lines[c.y]? = some ln ∧ c.x ≤ ln.len :=
  ⟨by decide, (C16_page_jump_is_clamped world_ok grow_twice st_ab_end (by decide) (by decide)).1⟩

/-! ## Comments -/

theorem store_keeps {P : Nat → Prop} {a a1 : List Nat} {k v : Nat}
    (h : store a k v = some a1) (hv : P v) (ha : ∀ x ∈ a, P x) : ∀ x ∈ a1, P x := by
  unfold store at h
  split at h
  · simp only [Option.some.injEq] at h
    subst h
    exact forall_mem_set k ha hv
  · exact absurd h (by simp)

theorem fill_up_keeps {P : Nat → Prop} (base v : Nat) (hv : P v) :
    ∀ (cnt j : Nat) (hl hl1 : List Nat), fill_up base v cnt j hl = some hl1 →
      (∀ x ∈ hl, P x) → ∀ x ∈ hl1, P x
  | 0, _, hl, hl1, h, ha => by
    simp only [fill_up, Option.some.injEq] at h
    subst h; exact ha
  | cnt + 1, j, hl, hl1, h, ha => by
    simp only [fill_up, Option.bind_eq_some] at h
    obtain ⟨a, h1, h2⟩ := h
    exact fill_up_keeps base v hv cnt (j + 1) a hl1 h2 (store_keeps h1 hv ha)

theorem fill_down_keeps {P : Nat → Prop} (i : Nat) (hv : P H_NUM) :
    ∀ (cnt : Nat) (hl hl1 : List Nat), fill_down i cnt hl = some hl1 →
      (∀ x ∈ hl, P x) → ∀ x ∈ hl1, P x
  | 0, hl, hl1, h, ha => by
    simp only [fill_down, Option.some.injEq] at h
    subst h; exact ha
  | cnt + 1, hl, hl1, h, ha => by
    simp only [fill_down, Option.bind_eq_some] at h
    obtain ⟨a, h1, h2⟩ := h
    exact fill_down_keeps i hv cnt a hl1 h2 (store_keeps h1 hv ha)

theorem keyword_at_keeps {P : Nat → Prop} (rest : List Nat) (i : Nat) (kw : List Nat)
    (kw_type : Nat) (hl : List Nat) (next : Option (List Nat)) (hl1 : List Nat)
    (hv : P kw_type) (ha : ∀ x ∈ hl, P x)
    (hn : ∀ hl2, next = some hl2 → ∀ x ∈ hl2, P x)
    (h : keyword_at rest i kw kw_type hl next = some hl1) : ∀ x ∈ hl1, P x := by
  simp only [keyword_at] at h
  split at h
  · exact hn _ h
  · split at h
    · split at h
      · exact fill_up_keeps i kw_type hv _ _ _ _ h ha
      · split at h
        · exact absurd h (by simp)
        · split at h
          · exact fill_up_keeps i kw_type hv _ _ _ _ h ha
          · exact hn _ h
    · exact hn _ h

theorem keyword_loop_keeps {P : Nat → Prop} (rest : List Nat) (i : Nat)
    (h1 : P H_KEY) (h2 : P H_KEY_ALT) :
    ∀ (kws : List (List Nat)) (hl hl1 : List Nat), keyword_loop rest i kws hl = some hl1 →
      (∀ x ∈ hl, P x) → ∀ x ∈ hl1, P x
  | [], hl, hl1, h, ha => by
    simp only [keyword_loop, Option.some.injEq] at h
    subst h; exact ha
  | keyword :: more, hl, hl1, h, ha => by
    have ih := fun hl2 (e : keyword_loop rest i more hl = some hl2) =>
      keyword_loop_keeps rest i h1 h2 more hl hl2 e ha
    simp only [keyword_loop] at h
    split at h
    · exact absurd h (by simp)
    · split at h
      · exact keyword_at_keeps _ _ _ _ _ _ _ h2 ha ih h
      · exact keyword_at_keeps _ _ _ _ _ _ _ h1 ha ih h

theorem hex_literal_keeps {P : Nat → Prop} (text : List Nat) (len i : Nat) (hl hl1 : List Nat)
    (hv : P H_NUM) (ha : ∀ x ∈ hl, P x) (h : hex_literal text len i hl = some hl1) :
    ∀ x ∈ hl1, P x := by
  simp only [hex_literal] at h
  split at h
  · exact absurd h (by simp)
  · split at h
    · exact fill_down_keeps i hv _ _ _ h ha
    · simp only [Option.some.injEq] at h
      subst h; exact ha

/-- The part of the loop body behind the string handling writes the classes of
numbers and keywords only, and leaves the string state as it is. -/
theorem hl_word_keeps {P : Nat → Prop} (lang : Syntax) (text : List Nat) (len i char : Nat)
    (st st1 : hl_state) (h1 : P H_NUM) (h2 : P H_KEY) (h3 : P H_KEY_ALT)
    (ha : ∀ x ∈ st.hl, P x) (h : hl_word lang text len i char st = some st1) :
    (∀ x ∈ st1.hl, P x) ∧ st1.skip = st.skip ∧ st1.string_char = st.string_char := by
  unfold hl_word at h
  simp only [Option.bind_eq_bind, Option.bind_eq_some, bind] at h
  obtain ⟨prev, _, hl1, e1, hl2, e2, hl3, e3, e4⟩ := h
  simp only [Option.some.injEq] at e4
  subst e4
  refine ⟨?_, rfl, rfl⟩
  have a1 : ∀ x ∈ hl1, P x := by
    split at e1
    · exact hex_literal_keeps _ _ _ _ _ h1 ha e1
    · simp only [Option.some.injEq] at e1
      subst e1; exact ha
  have a2 : ∀ x ∈ hl2, P x := by
    split at e2
    · exact store_keeps e2 h1 a1
    · simp only [Option.some.injEq] at e2
      subst e2; exact a1
  have a3 : ∀ b : Bool, (if b = true then keyword_loop (text.drop i) i lang.Keywords hl2
      else some hl2) = some hl3 → ∀ x ∈ hl3, P x := by
    intro b e
    cases b
    · simp only [Bool.false_eq_true, if_false, Option.some.injEq] at e
      subst e; exact a2
    · simp only [if_true] at e
      exact keyword_loop_keeps _ _ h2 h3 _ _ _ e a2
  exact a3 _ e3

theorem hl_loop_step (lang : Syntax) (text : List Nat) (len cnt i : Nat) (st : hl_state)
    (char : Nat) (hc : text[i]? = some char) :
    hl_loop lang text len (cnt + 1) i st =
      if 0 < st.skip then hl_loop lang text len cnt (i + 1) { st with skip := st.skip - 1 }
      else if st.string_char = 0 && lang.In_line_comment.isPrefixOf (text.drop i) then
        fill_up i H_COMMENT (text.drop i).length 0 st.hl
      else if st.string_char ≠ 0 then
        match store st.hl i H_STR with
        | none => none
        | some hl1 =>
          if char = 92 ∧ i + 1 < len then
            match store hl1 (i + 1) H_STR with
            | none => none
            | some hl2 =>
              hl_loop lang text len cnt (i + 1) { st with hl := hl2, skip := st.skip + 1 }
          else if char = st.string_char then
            hl_loop lang text len cnt (i + 1) { st with hl := hl1, string_char := 0 }
          else hl_loop lang text len cnt (i + 1) { st with hl := hl1 }
      else if char = 39 ∨ char = 34 then
        match store st.hl i H_STR with
        | none => none
        | some hl1 => hl_loop lang text len cnt (i + 1) { st with hl := hl1, string_char := char }
      else
        match hl_word lang text len i char st with
        | none => none
        | some st1 => hl_loop lang text len cnt (i + 1) st1 := by
  rw [hl_loop, hc]

/-- The loop of `highlight_line` up to the first comment marker, when no quote
stands before it: from the marker on every byte is comment, before it none. -/
theorem hl_loop_comment_at (lang : Syntax) (text : List Nat) (p : Nat)
    (hk : ∀ kw ∈ lang.Keywords, kw ≠ [])
    (hp : lang.In_line_comment.isPrefixOf (text.drop p) = true) (hple : p ≤ text.length)
    (hfirst : ∀ q, q < p → lang.In_line_comment.isPrefixOf (text.drop q) = false)
    (hquote : ∀ q, q < p → text[q]? ≠ some 39 ∧ text[q]? ≠ some 34) :
    ∀ (cnt i : Nat) (st : hl_state), i + cnt = text.length → i ≤ p →
      st.hl.length = text.length → st.skip = 0 → st.string_char = 0 →
      (∀ x ∈ st.hl, x ≠ H_COMMENT) →
      ∃ A, hl_loop lang text text.length cnt i st
          = some (A ++ List.replicate (text.length - p) H_COMMENT) ∧
        A.length = p ∧ ∀ x ∈ A, x ≠ H_COMMENT
  | 0, i, st, hi, hip, hlen, _, _, hno => by
    have e : text.length - p = 0 := by omega
    exact ⟨st.hl, by simp [hl_loop, e], by omega, hno⟩
  | cnt + 1, i, st, hi, hip, hlen, hskip, hstr, hno => by
    have hlt : i < text.length := by omega
    rw [hl_loop_step lang text _ cnt i st _ (List.getElem?_eq_getElem hlt),
      if_neg (by omega)]
    by_cases hip2 : i = p
    · subst hip2
      simp only [hstr, hp, decide_True, Bool.and_self, if_true]
      rw [fill_up_eq _ _ _ _ _ (by simp; omega)]
      refine ⟨st.hl.take i, ?_, by simp; omega, fun x hx => hno x (List.mem_of_mem_take hx)⟩
      simp only [Nat.add_zero, List.length_drop]
      rw [List.drop_of_length_le (by omega)]
      simp
    · have hiq : i < p := by omega
      have hq := hquote i hiq
      rw [List.getElem?_eq_getElem hlt] at hq
      have hq1 : ¬ (text[i] = 39 ∨ text[i] = 34) := by
        intro h
        rcases h with h | h
        · exact hq.1 (by rw [h])
        · exact hq.2 (by rw [h])
      simp only [hstr, hfirst i hiq, Bool.and_false, Bool.false_eq_true, if_false,
        ne_eq, not_true_eq_false, hq1]
      obtain ⟨st1, h1, h2, h3, h4⟩ := hl_word_total lang text i text[i] st hk hlt hlen
      have h5 := hl_word_keeps (P := fun x => x ≠ H_COMMENT) lang text text.length i text[i]
        st st1 (by decide) (by decide) (by decide) hno h1
      simp only [h1]
      exact hl_loop_comment_at lang text p hk hp hple hfirst hquote cnt (i + 1) st1
        (by omega) (by omega) h2 (by rw [h3, hskip]) (by rw [h4, hstr]) h5.1

/-- The loop of `highlight_line` on a line whose comment markers all lie inside
string literals: no byte is classified as comment. -/
theorem hl_loop_no_comment (lang : Syntax) (text : List Nat)
    (hk : ∀ kw ∈ lang.Keywords, kw ≠ []) :
    ∀ (cnt i : Nat) (st : hl_state), i + cnt = text.length →
      st.hl.length = text.length → (∀ x ∈ st.hl, x ≠ H_COMMENT) →
      (∀ q, lang.In_line_comment.isPrefixOf (text.drop (i + q)) = true →
        (in_string_from text.length st.string_char st.skip i (text.drop i))[q]? = some true) →
      ∃ hl1, hl_loop lang text text.length cnt i st = some hl1 ∧
        hl1.length = text.length ∧ ∀ x ∈ hl1, x ≠ H_COMMENT
  | 0, _, st, _, hlen, hno, _ => ⟨st.hl, rfl, hlen, hno⟩
  | cnt + 1, i, st, hi, hlen, hno, hin => by
    have hlt : i < text.length := by omega
    have hdrop : text.drop i = text[i] :: text.drop (i + 1) := List.drop_eq_getElem_cons hlt
    have hstr : H_STR ≠ H_COMMENT ∧ H_STR ≠ H_COMMENT := by decide
    have ih := fun st1 h1 h2 h3 =>
      hl_loop_no_comment lang text hk cnt (i + 1) st1 (by omega) h1 h2 h3
    have tail : ∀ (m : List Bool) (b : Bool),
        (∀ q, lang.In_line_comment.isPrefixOf (text.drop (i + q)) = true →
          (b :: m)[q]? = some true) →
        ∀ q, lang.In_line_comment.isPrefixOf (text.drop (i + 1 + q)) = true →
          m[q]? = some true := by
      intro m b h q hq
      have := h (q + 1) (by rw [show i + (q + 1) = i + 1 + q by omega]; exact hq)
      simpa using this
    rw [hdrop] at hin
    rw [hl_loop_step lang text _ cnt i st _ (List.getElem?_eq_getElem hlt)]
    by_cases hskip : 0 < st.skip
    · rw [if_pos hskip]
      simp only [in_string_from, hskip, if_true] at hin
      exact ih _ hlen hno (tail _ _ hin)
    · rw [if_neg hskip]
      by_cases hq : st.string_char = 0
      · have hq2 : ¬ (st.string_char ≠ 0) := fun h => h hq
        simp only [in_string_from, hskip, if_false, hq2] at hin
        have hnp : lang.In_line_comment.isPrefixOf (text.drop i) = false := by
          by_contra hc
          have := hin 0 (by simpa using hc)
          simp at this
        simp only [hq, hnp, Bool.and_false, Bool.false_eq_true, if_false, ne_eq,
          not_true_eq_false]
        by_cases hquote : text[i] = 39 ∨ text[i] = 34
        · rw [if_pos hquote, store_some H_STR (show i < st.hl.length by omega)]
          simp only [hquote, if_true] at hin
          exact ih _ (by simp [hlen]) (forall_mem_set _ hno hstr.2) (tail _ _ hin)
        · rw [if_neg hquote]
          obtain ⟨st1, h1, h2, h3, h4⟩ := hl_word_total lang text i text[i] st hk hlt hlen
          have h5 := hl_word_keeps (P := fun x => x ≠ H_COMMENT) lang text text.length i
            text[i] st st1 (by decide) (by decide) (by decide) hno h1
          simp only [hquote, if_false] at hin
          simp only [h1]
          refine ih st1 h2 h5.1 ?_
          rw [h3, h4]
          exact tail _ _ hin
      · have hq2 : st.string_char ≠ 0 := hq
        simp only [in_string_from, hskip, if_false, hq2, ne_eq, not_false_eq_true, if_true]
          at hin
        simp only [hq, decide_False, Bool.false_and, Bool.false_eq_true, if_false, ne_eq,
          not_false_eq_true, if_true]
        rw [store_some H_STR (show i < st.hl.length by omega)]
        simp only
        by_cases hesc : text[i] = 92 ∧ i + 1 < text.length
        · rw [if_pos hesc, store_some H_STR (show i + 1 < (st.hl.set i H_STR).length by
            simp; omega)]
          simp only [hesc, and_self, if_true] at hin
          refine ih _ (by simp [hlen])
            (forall_mem_set _ (forall_mem_set _ hno hstr.2) hstr.2) ?_
          exact tail _ _ hin
        · rw [if_neg hesc]
          simp only [hesc, if_false] at hin
          by_cases hclose : text[i] = st.string_char
          · rw [if_pos hclose]
            simp only [hclose, if_true] at hin
            exact ih _ (by simp [hlen]) (forall_mem_set _ hno hstr.2) (tail _ _ hin)
          · rw [if_neg hclose]
            simp only [hclose, if_false] at hin
            exact ih _ (by simp [hlen]) (forall_mem_set _ hno hstr.2) (tail _ _ hin)

/-- C11.  For every profile (without an empty keyword) and every line: when no
quote character stands before the first occurrence of the comment marker, at
index `p`, `highlight_line` classifies every byte at an index `>= p` as
comment and no byte at an index `< p`; and when every occurrence of the marker
lies inside a string literal opened earlier on the line, no byte of the line
is classified as comment. -/
theorem C11_comment_runs_to_end_of_line (lang : Syntax) (text : List Nat)
    (hk : ∀ kw ∈ lang.Keywords, kw ≠ []) :
    (∀ p, lang.In_line_comment.isPrefixOf (text.drop p) = true →
      (∀ q, q < p → lang.In_line_comment.isPrefixOf (text.drop q) = false) →
      (∀ q, q < p → text[q]? ≠ some 39 ∧ text[q]? ≠ some 34) →
      ∃ hl : List Nat, highlight_line lang text text.length = some hl ∧ hl.length = text.length ∧
        (∀ k, p ≤ k → k < text.length → hl[k]? = some H_COMMENT) ∧
        (∀ k, k < p → hl[k]? ≠ some H_COMMENT)) ∧
    ((∀ q, lang.In_line_comment.isPrefixOf (text.drop q) = true →
        (in_string text)[q]? = some true) →
      ∃ hl : List Nat, highlight_line lang text text.length = some hl ∧ hl.length = text.length ∧
        ∀ k : Nat, hl[k]? ≠ some H_COMMENT) := by
  have hinit : ∀ x ∈ List.replicate text.length H_NONE, x ≠ H_COMMENT := by
    intro x hx
    rw [List.eq_of_mem_replicate hx]
    decide
  constructor
  · intro p hp hfirst hquote
    have hple : p ≤ text.length := by
      by_contra hgt
      have hnil : text.drop p = [] := List.drop_of_length_le (by omega)
      rw [hnil] at hp
      have hm : lang.In_line_comment = [] := by
        cases hc : lang.In_line_comment with
        | nil => rfl
        | cons a m => rw [hc] at hp; simp [List.isPrefixOf] at hp
      have h0 := hfirst 0 (by omega)
      rw [hm] at h0
      simp [List.isPrefixOf] at h0
    obtain ⟨A, h1, h2, h3⟩ := hl_loop_comment_at lang text p hk hp hple hfirst hquote
      text.length 0 ⟨List.replicate text.length H_NONE, true, 0, 0⟩ (by omega) (by omega)
      (by simp) rfl rfl hinit
    refine ⟨_, h1, by simp [h2]; omega, ?_, ?_⟩
    · intro k hpk hkn
      rw [List.getElem?_append_right (by omega), h2, List.getElem?_replicate]
      rw [if_pos (by omega)]
    · intro k hkp
      rw [List.getElem?_append_left (by omega), List.getElem?_eq_getElem (by omega)]
      intro hc
      simp only [Option.some.injEq] at hc
      exact h3 _ (List.getElem_mem _) hc
  · intro hin
    obtain ⟨hl, h1, h2, h3⟩ := hl_loop_no_comment lang text hk text.length 0
      ⟨List.replicate text.length H_NONE, true, 0, 0⟩ (by omega) (by simp) hinit
      (by
        intro q hq
        rw [Nat.zero_add] at hq
        exact hin q hq)
    refine ⟨hl, h1, h2, fun k hc => ?_⟩
    exact h3 _ (List.getElem?_mem hc) rfl

theorem in_string_example (q : Nat)
    (hq : c_profile.In_line_comment.isPrefixOf ((bs "s = \"//\"").drop q) = true) :
    (in_string (bs "s = \"//\""))[q]? = some true := by
  by_cases h : q < 8
  · interval_cases q <;> first | rfl | exact absurd hq (by decide)
  · have hlen : (bs "s = \"//\"").length = 8 := by decide
    have hnil : List.drop q (bs "s = \"//\"") = [] := List.drop_of_length_le (by omega)
    rw [hnil] at hq
    exact absurd hq (by decide)

/-- C11 on two lines of a C file: `x = 1 // c`, whose marker stands at index 6,
and `s = "//"`, whose marker lies inside a string literal. -/
theorem C11_comment_witness :
    (∀ kw ∈ c_profile.Keywords, kw ≠ []) ∧
    (∃ hl : List Nat, highlight_line c_profile (bs "x = 1 // c") (bs "x = 1 // c").length
        = some hl ∧
      hl.length = (bs "x = 1 // c").length ∧
      (∀ k, 6 ≤ k → k < (bs "x = 1 // c").length → hl[k]? = some H_COMMENT) ∧
      (∀ k, k < 6 → hl[k]? ≠ some H_COMMENT)) ∧
    (∃ hl : List Nat, highlight_line c_profile (bs "s = \"//\"") (bs "s = \"//\"").length
        = some hl ∧
      hl.length = (bs "s = \"//\"").length ∧ ∀ k : Nat, hl[k]? ≠ some H_COMMENT) :=
  ⟨by decide,
    (C11_comment_runs_to_end_of_line c_profile (bs "x = 1 // c") (by decide)).1 6
      (by decide) (by decide) (by decide),
    (C11_comment_runs_to_end_of_line c_profile (bs "s = \"//\"") (by decide)).2
      in_string_example⟩


/-! ## The welcome banner -/

theorem bs_space : bs " " = [32] := by decide

theorem bs_tilde : bs "~" = [126] := by decide

theorem title_print_len : (NAME ++ VERSION).length + 5 = 13 := by decide

theorem byline_print_len : (AUTHOR ++ EMAIL).length + 13 = 43 := by decide

theorem welcome_byline_length : welcome_byline.length = 61 := by decide

theorem pad_loop_buffer (n : Nat) (b : buf) :
    (pad_loop n b).buffer = b.buffer ++ List.replicate n 32 := by
  induction n generalizing b with
  | zero => simp [pad_loop]
  | succ n ih =>
    rw [pad_loop, ih, bs_space, List.replicate_succ]
    simp [add_to_buffer]

/-- What `center_msg` appends: one `~` and then spaces, `padding` bytes in all,
and the message cut to the width. -/
theorem center_msg_buffer (s : editor_state) (b : buf) (msg : List Nat) (print_len : Nat) :
    (center_msg s b msg print_len).buffer
      = b.buffer
        ++ (List.replicate (min 1 (center_padding s.dim.x print_len)) 126
            ++ List.replicate (center_padding s.dim.x print_len - 1) 32)
        ++ msg.take (min s.dim.x msg.length) := by
  have hm : (if s.dim.x < msg.length then s.dim.x else msg.length) = min s.dim.x msg.length := by
    split <;> omega
  unfold center_msg
  simp only [hm]
  by_cases hp : 0 < center_padding s.dim.x print_len
  · have h1 : min 1 (center_padding s.dim.x print_len) = 1 := by omega
    simp only [hp, if_true, h1, add_to_buffer, pad_loop_buffer, bs_tilde]
    simp
  · have h0 : center_padding s.dim.x print_len = 0 := by omega
    simp [h0, add_to_buffer, pad_loop]

theorem center_msg_length (s : editor_state) (b : buf) (msg : List Nat) (print_len : Nat) :
    (center_msg s b msg print_len).buffer.length
      = b.buffer.length + center_padding s.dim.x print_len + min s.dim.x msg.length := by
  rw [center_msg_buffer]
  simp only [List.length_append, List.length_replicate, List.length_take]
  omega

/-- In a terminal at least as wide as the printed length the padding is the
half of the difference. -/
theorem center_padding_wide (dim_x print_len : Nat) (h : print_len ≤ dim_x)
    (hx : dim_x < 18446744073709551616) :
    center_padding dim_x print_len = (dim_x - print_len) / 2 := by
  unfold center_padding usub
  have : (dim_x + 18446744073709551616 - print_len) % 18446744073709551616
      = dim_x - print_len := by omega
  rw [this]

/-- In a terminal narrower than the printed length the subtraction wraps. -/
theorem center_padding_narrow (dim_x print_len : Nat) (h : dim_x < print_len)
    (hp : print_len ≤ 18446744073709551616) :
    center_padding dim_x print_len = (18446744073709551616 + dim_x - print_len) / 2 := by
  unfold center_padding usub
  have : (dim_x + 18446744073709551616 - print_len) % 18446744073709551616
      = 18446744073709551616 + dim_x - print_len := by omega
  rw [this]

theorem print_welcome_length (s : editor_state) (b : buf) :
    b.buffer.length + center_padding s.dim.x 43 ≤ (print_welcome s b).buffer.length := by
  unfold print_welcome
  simp only [byline_print_len, center_msg_length, add_to_buffer, List.length_append]
  omega

/-- Drawing the rows of an empty document returns, and never shortens the
buffer. -/
theorem draw_rows_loop_empty (s : editor_state) (h0 : s.used_rows = 0) (fuel : Nat) :
    ∀ (start_row : Nat) (b : buf), ∃ b1 : buf,
      draw_rows_loop s fuel start_row b = some b1 ∧ b.buffer.length ≤ b1.buffer.length := by
  induction fuel with
  | zero => intro start_row b; exact ⟨b, rfl, Nat.le_refl _⟩
  | succ fuel ih =>
    intro start_row b
    rw [draw_rows_loop]
    by_cases hs : start_row < s.dim.y
    · simp only [hs, if_true, h0, Nat.zero_le, true_and]
      by_cases hw : start_row = s.dim.y / 4
      · simp only [hw, if_true, Option.some_bind]
        obtain ⟨b1, e1, l1⟩ := ih (s.dim.y / 4 + 2 + 1)
          (add_to_buffer (add_to_buffer (print_welcome s b) (bs "\x1b[K")) (bs "\r\n"))
        refine ⟨b1, e1, ?_⟩
        have := print_welcome_length s b
        simp only [add_to_buffer, List.length_append] at l1
        omega
      · simp only [hw, if_false, Option.some_bind]
        obtain ⟨b1, e1, l1⟩ := ih (start_row + 1)
          (add_to_buffer (add_to_buffer (add_to_buffer b (bs "~")) (bs "\x1b[K")) (bs "\r\n"))
        refine ⟨b1, e1, ?_⟩
        simp only [add_to_buffer, List.length_append] at l1
        omega
    · simp only [hs, if_false]
      exact ⟨b, rfl, Nat.le_refl _⟩

/-- Drawing the rows of an empty document from a row at or above the banner's
appends at least the padding of the byline. -/
theorem draw_rows_loop_banner (s : editor_state) (h0 : s.used_rows = 0)
    (hy : s.dim.y / 4 < s.dim.y) (fuel : Nat) :
    ∀ (start_row : Nat) (b : buf), start_row ≤ s.dim.y / 4 → s.dim.y / 4 < start_row + fuel →
      ∃ b1 : buf, draw_rows_loop s fuel start_row b = some b1
        ∧ b.buffer.length + center_padding s.dim.x 43 ≤ b1.buffer.length := by
  induction fuel with
  | zero => intro start_row b h1 h2; omega
  | succ fuel ih =>
    intro start_row b h1 h2
    rw [draw_rows_loop]
    have hs : start_row < s.dim.y := by omega
    simp only [hs, if_true, h0, Nat.zero_le, true_and]
    by_cases hw : start_row = s.dim.y / 4
    · simp only [hw, if_true, Option.some_bind]
      obtain ⟨b1, e1, l1⟩ := draw_rows_loop_empty s h0 fuel (s.dim.y / 4 + 2 + 1)
        (add_to_buffer (add_to_buffer (print_welcome s b) (bs "\x1b[K")) (bs "\r\n"))
      refine ⟨b1, e1, ?_⟩
      have := print_welcome_length s b
      simp only [add_to_buffer, List.length_append] at l1
      omega
    · simp only [hw, if_false, Option.some_bind]
      obtain ⟨b1, e1, l1⟩ := ih (start_row + 1)
        (add_to_buffer (add_to_buffer (add_to_buffer b (bs "~")) (bs "\x1b[K")) (bs "\r\n"))
        (by omega) (by omega)
      refine ⟨b1, e1, ?_⟩
      simp only [add_to_buffer, List.length_append] at l1
      omega

/-- C21. The padding of `center_msg` wraps around in a terminal narrower than
the printed length of the banner. For every empty document shown in a window of
at least one row and fewer than 43 columns, the printed length of the byline:
the padding count of the byline is `(2^64 + dim.x - 43) / 2`, which is more
than `dim.x`; `center_msg` appends one `~` and that many spaces less one before
the message; and `draw_rows` returns a buffer longer by at least `2^63 - 22`
bytes. -/
theorem C21_banner_padding_wraps (s : editor_state) (b : buf)
    (h0 : s.used_rows = 0) (hy : 0 < s.dim.y) (hx : s.dim.x < 43) :
    center_padding s.dim.x ((AUTHOR ++ EMAIL).length + 13)
        = (18446744073709551616 + s.dim.x - 43) / 2
    ∧ s.dim.x < center_padding s.dim.x ((AUTHOR ++ EMAIL).length + 13)
    ∧ (center_msg s b welcome_byline ((AUTHOR ++ EMAIL).length + 13)).buffer
        = b.buffer
          ++ (126 :: List.replicate ((18446744073709551616 + s.dim.x - 43) / 2 - 1) 32)
          ++ welcome_byline.take s.dim.x
    ∧ ∃ b1 : buf, draw_rows s b = some b1
        ∧ b.buffer.length + 9223372036854775786 ≤ b1.buffer.length := by
  have hp : center_padding s.dim.x 43 = (18446744073709551616 + s.dim.x - 43) / 2 :=
    center_padding_narrow s.dim.x 43 hx (by omega)
  have hmin : min s.dim.x welcome_byline.length = s.dim.x := by
    rw [welcome_byline_length]; omega
  have h1 : min 1 ((18446744073709551616 + s.dim.x - 43) / 2) = 1 := by omega
  refine ⟨by rw [byline_print_len, hp], by rw [byline_print_len, hp]; omega, ?_, ?_⟩
  · rw [center_msg_buffer, byline_print_len, hp, hmin, h1]
    rfl
  · obtain ⟨b1, e1, l1⟩ := draw_rows_loop_banner s h0 (by omega) s.dim.y 0 b
      (Nat.zero_le _) (by omega)
    refine ⟨b1, e1, ?_⟩
    rw [hp] at l1
    omega

theorem C21_banner_padding_wraps_witness :
    st_narrow.used_rows = 0 ∧ 0 < st_narrow.dim.y ∧ st_narrow.dim.x < 43
    ∧ center_padding st_narrow.dim.x ((AUTHOR ++ EMAIL).length + 13) = 9223372036854775806
    ∧ ∃ b1 : buf, draw_rows st_narrow ⟨[], 0⟩ = some b1
        ∧ 9223372036854775786 ≤ b1.buffer.length := by
  have h := C21_banner_padding_wraps st_narrow ⟨[], 0⟩ (by decide) (by decide) (by decide)
  refine ⟨by decide, by decide, by decide, ?_, ?_⟩
  · rw [h.1]; decide
  · obtain ⟨b1, e1, l1⟩ := h.2.2.2
    exact ⟨b1, e1, by simpa using l1⟩

end SEA
